import Mathlib

/-!
# Lista de afazeres (Go) : a shallow embedding of `src/main.go`

The program keeps one global slice `tasks []Task`, mutated by a text menu
(`addTask`, `completeTask`) and by HTTP handlers (`handleAddTask`), loaded from
and saved to a JSON file (`loadTasksFromFile`, `saveTasksToFile`).

Conventions of the embedding:

* a Go `string` is a finite sequence of bytes, here `List Nat` with every entry
  below 256 (a Go string need not be valid UTF-8);
* a Go `int` is a 64-bit signed integer, here `Int`; the only arithmetic of the
  program on it is `len(tasks) + 1` and `i + 1` with `i < len(tasks)`, which
  cannot overflow;
* the global slice `tasks` is a `List Task`, passed explicitly;
* `readInput` is modelled by a list of the lines still to be read; at the end of
  the input `scanner.Text()` is the empty string;
* `log.Fatalf` ends the process: a function that may call it returns an `Option`,
  `none` being the fatal exit;
* the functions of the Go standard library that `main.go` calls (`strconv.Atoi`,
  `json.Encoder.Encode`, `json.Decoder.Decode`, with `unicode/utf8` below them)
  are not part of the repository; they are written out here after their
  documented behaviour, for the types `Task` and `[]Task` only.
-/

namespace TodoList

/-- A Go `string`: a sequence of bytes. -/
abbrev GoString := List Nat

/-- The bytes of an ASCII literal, used to write concrete inputs. -/
def ascii (s : String) : GoString := s.toList.map Char.toNat

/-- The type `Task struct { ID int; Text string }`, main.go lines 14-17. -/
structure Task where
  ID : Int
  Text : GoString
deriving DecidableEq

/-- The global `var tasks []Task`, main.go line 19: the zero value, an empty (nil) slice. -/
def initialTasks : List Task := []

/-! ## Menu: adding tasks (main.go lines 66-81) -/

/-- One iteration of the loop body of `addTask`, line 71:
`tasks = append(tasks, Task{ID: len(tasks) + 1, Text: task})`. -/
def addTaskStep (tasks : List Task) (task : GoString) : List Task :=
  tasks ++ [{ ID := (tasks.length : Int) + 1, Text := task }]

/-- The function `addTask`: reads a text, appends the task, reads the answer to
"Deseja adicionar mais uma tarefa? (s/n)" and loops while the answer is `"s"`.
The first component is the store on return, the second the unread input.
At the end of the input `readInput` yields `""`, which is added as a text
and, as an answer, ends the loop. -/
def addTask : List GoString → List Task → List Task × List GoString
  | [], tasks => (addTaskStep tasks [], [])
  | [task], tasks => (addTaskStep tasks task, [])
  | task :: choice :: rest, tasks =>
    if choice ≠ ascii "s" then (addTaskStep tasks task, rest)
    else addTask rest (addTaskStep tasks task)

/-! ## Menu: completing tasks (main.go lines 95-142) -/

/-- The loop of `reorganizeTaskIDs` from index `i` on: `(*tasks)[i].ID = i + 1`. -/
def reorganizeFrom : Nat → List Task → List Task
  | _, [] => []
  | i, task :: rest => { task with ID := (i : Int) + 1 } :: reorganizeFrom (i + 1) rest

/-- The function `reorganizeTaskIDs`, lines 123-127. -/
def reorganizeTaskIDs (tasks : List Task) : List Task :=
  reorganizeFrom 0 tasks

/-- The search loop of `removeTaskByID`, lines 131-137, from position `i` on:
the index of the first task whose ID is `id`, or `-1`. -/
def searchIndex (id : Int) : Nat → List Task → Int
  | _, [] => -1
  | i, task :: rest => if task.ID = id then (i : Int) else searchIndex id (i + 1) rest

/-- The function `removeTaskByID`, lines 130-142:
`append(tasks[:index], tasks[index+1:]...)` when the search found an index. -/
def removeTaskByID (tasks : List Task) (id : Int) : List Task :=
  let index := searchIndex id 0 tasks
  if index ≠ -1 then tasks.take index.toNat ++ tasks.drop (index.toNat + 1)
  else tasks

/-- The decimal value of a run of ASCII digits, the loop of `strconv.Atoi`:
`ch -= '0'; if ch > 9 { error }; n = n*10 + int(ch)`. -/
def digitsValue : List Nat → Nat → Option Nat
  | [], n => some n
  | ch :: rest, n =>
    if 0x30 ≤ ch ∧ ch ≤ 0x39 then digitsValue rest (n * 10 + (ch - 0x30)) else none

/-- The library function `strconv.Atoi` on 64-bit `int`: an optional sign, at
least one decimal digit, nothing else, and a value that fits in 64 bits;
`none` stands for a non-nil error. -/
def Atoi (s : GoString) : Option Int :=
  match s with
  | [] => none
  | c :: rest =>
    let neg := decide (c = 0x2D)
    let ds := if c = 0x2D ∨ c = 0x2B then rest else s
    match ds with
    | [] => none
    | _ :: _ =>
      match digitsValue ds 0 with
      | none => none
      | some n =>
        if neg then (if n ≤ 2 ^ 63 then some (-(n : Int)) else none)
        else (if n < 2 ^ 63 then some (n : Int) else none)

/-- What one iteration of `completeTask` prints after reading the number. -/
inductive CompleteMsg where
  /-- The message "Número de tarefa inválido." (line 106), then `continue`. -/
  | invalid
  /-- The message "Tarefa concluída e removida da lista." (line 111). -/
  | removed
deriving DecidableEq

/-- The range check of `completeTask`, line 105, on the result of `Atoi`:
`err != nil || id < 1 || id > len(tasks)`. -/
def rejected (tasks : List Task) : Option Int → Bool
  | none => true
  | some id => decide (id < 1 ∨ id > (tasks.length : Int))

/-- One iteration of `completeTask`, lines 103-111, on the line `taskID` read
from the user: the store afterwards and the message printed. -/
def completeTaskStep (tasks : List Task) (taskID : GoString) : List Task × CompleteMsg :=
  match Atoi taskID with
  | none => (tasks, CompleteMsg.invalid)
  | some id =>
    if id < 1 ∨ id > (tasks.length : Int) then (tasks, CompleteMsg.invalid)
    else (reorganizeTaskIDs (removeTaskByID tasks id), CompleteMsg.removed)

/-- The function `completeTask`. After a rejected number the loop reads a number
again; after a removal it reads the answer to "Deseja completar mais uma tarefa?"
and loops while it is `"s"`. At the end of the input every read yields `""`, which
is rejected as a number, so the loop never returns: that is `none`. -/
def completeTask : List GoString → List Task → Option (List Task × List GoString)
  | [], _ => none
  | [taskID], tasks =>
    if rejected tasks (Atoi taskID) then none
    else some ((completeTaskStep tasks taskID).1, [])
  | taskID :: choice :: rest, tasks =>
    if rejected tasks (Atoi taskID) then completeTask (choice :: rest) tasks
    else if choice ≠ ascii "s" then some ((completeTaskStep tasks taskID).1, rest)
    else completeTask rest (completeTaskStep tasks taskID).1

/-- The list `1, 2, ..., n`. -/
def oneTo (n : Nat) : List Int := (List.range n).map (fun (i : Nat) => (i : Int) + 1)

/-- The IDs of a store, in list order. -/
def ids (tasks : List Task) : List Int := tasks.map Task.ID

/-- The texts of a store, in list order. -/
def texts (tasks : List Task) : List GoString := tasks.map Task.Text

/-- IDs are exactly `1, 2, ..., N` in list order, `N` the length of the store. -/
def Dense (tasks : List Task) : Prop := ids tasks = oneTo tasks.length

instance (tasks : List Task) : Decidable (Dense tasks) := by
  unfold Dense; exact inferInstance

/-- The tasks `{1, t1}, ..., {k, tk}` for the texts `t1, ..., tk`. -/
def numbered (ts : List GoString) : List Task :=
  ts.enum.map (fun p => { ID := (p.1 : Int) + 1, Text := p.2 })

/-- The stores reachable from the empty store by menu operations alone. -/
inductive MenuReachable : List Task → Prop where
  | init : MenuReachable initialTasks
  | add (tasks : List Task) (task : GoString) :
      MenuReachable tasks → MenuReachable (addTaskStep tasks task)
  | complete (tasks : List Task) (taskID : GoString) :
      MenuReachable tasks → MenuReachable (completeTaskStep tasks taskID).1


/-! ## The library `unicode/utf8`

`DecodeRune` and `EncodeRune` follow the Go standard library; shifts and masks
are written with `/`, `%` and `*` on natural numbers. -/

/-- The constant `utf8.RuneError`, U+FFFD. -/
def RuneError : Nat := 0xFFFD

/-- Whether `b` is a continuation byte `10xxxxxx`. -/
def isCont (b : Nat) : Bool := decide (0x80 ≤ b ∧ b ≤ 0xBF)

/-- The library function `utf8.DecodeRune`: the first rune of `p` and its width in
bytes; `(RuneError, 0)` on empty input, `(RuneError, 1)` on an invalid or
truncated encoding (overlong forms, surrogates and values above U+10FFFF are
invalid). -/
def DecodeRune : List Nat → Nat × Nat
  | [] => (RuneError, 0)
  | p0 :: rest =>
    if p0 < 0x80 then (p0, 1)
    else if 0xC2 ≤ p0 ∧ p0 ≤ 0xDF then
      match rest with
      | b1 :: _ =>
        if isCont b1 then ((p0 % 32) * 64 + b1 % 64, 2) else (RuneError, 1)
      | _ => (RuneError, 1)
    else if 0xE0 ≤ p0 ∧ p0 ≤ 0xEF then
      match rest with
      | b1 :: b2 :: _ =>
        if (if p0 = 0xE0 then 0xA0 else 0x80) ≤ b1 ∧ b1 ≤ (if p0 = 0xED then 0x9F else 0xBF)
            ∧ isCont b2 then
          ((p0 % 16) * 4096 + (b1 % 64) * 64 + b2 % 64, 3)
        else (RuneError, 1)
      | _ => (RuneError, 1)
    else if 0xF0 ≤ p0 ∧ p0 ≤ 0xF4 then
      match rest with
      | b1 :: b2 :: b3 :: _ =>
        if (if p0 = 0xF0 then 0x90 else 0x80) ≤ b1 ∧ b1 ≤ (if p0 = 0xF4 then 0x8F else 0xBF)
            ∧ isCont b2 ∧ isCont b3 then
          ((p0 % 8) * 262144 + (b1 % 64) * 4096 + (b2 % 64) * 64 + b3 % 64, 4)
        else (RuneError, 1)
      | _ => (RuneError, 1)
    else (RuneError, 1)

/-- The library function `utf8.EncodeRune` (`utf8.AppendRune`): the UTF-8 bytes of
a rune; surrogates and values above U+10FFFF are written as U+FFFD. -/
def EncodeRune (r : Nat) : List Nat :=
  if r ≤ 0x7F then [r]
  else if r ≤ 0x7FF then [0xC0 + r / 64, 0x80 + r % 64]
  else if r > 0x10FFFF ∨ (0xD800 ≤ r ∧ r ≤ 0xDFFF) then [0xEF, 0xBF, 0xBD]
  else if r ≤ 0xFFFF then [0xE0 + r / 4096, 0x80 + (r / 64) % 64, 0x80 + r % 64]
  else [0xF0 + r / 262144, 0x80 + (r / 4096) % 64, 0x80 + (r / 64) % 64, 0x80 + r % 64]

/-- The loop of `utf8.ValidString`, with `fuel` bounding the number of runes. -/
def validAux : Nat → List Nat → Bool
  | _, [] => true
  | 0, _ :: _ => false
  | fuel + 1, b :: rest =>
    if (DecodeRune (b :: rest)).1 = RuneError ∧ (DecodeRune (b :: rest)).2 = 1 then false
    else validAux fuel (rest.drop ((DecodeRune (b :: rest)).2 - 1))

/-- The library function `utf8.ValidString`: `s` consists entirely of valid
UTF-8-encoded runes. -/
def ValidString (s : GoString) : Bool := validAux s.length s

/-- The UTF-8 bytes of a string literal, used to write concrete inputs. -/
def utf8 (s : String) : GoString := s.toList.flatMap (fun c => EncodeRune c.toNat)

/-! ## The library `encoding/json`: encoding

`json.NewEncoder(w).Encode(v)` for `v` of type `[]Task` or `Task`: the compact
JSON text followed by a newline, with HTML escaping on (the default of an
`Encoder`). -/

/-- The table `hex = "0123456789abcdef"`. -/
def hexDigit (n : Nat) : Nat := if n < 10 then 0x30 + n else 0x61 + (n - 10)

/-- The table `htmlSafeSet` on ASCII: every byte from the space on except the
double quote, `&`, `<`, `>` and the backslash. -/
def htmlSafe (b : Nat) : Bool :=
  decide (0x20 ≤ b ∧ b ≠ 0x22 ∧ b ≠ 0x26 ∧ b ≠ 0x3C ∧ b ≠ 0x3E ∧ b ≠ 0x5C)

/-- The escape `appendString` writes for an ASCII byte outside `htmlSafeSet`. -/
def escapeByte (b : Nat) : List Nat :=
  if b = 0x5C ∨ b = 0x22 then [0x5C, b]
  else if b = 0x08 then [0x5C, 0x62]
  else if b = 0x0C then [0x5C, 0x66]
  else if b = 0x0A then [0x5C, 0x6E]
  else if b = 0x0D then [0x5C, 0x72]
  else if b = 0x09 then [0x5C, 0x74]
  else [0x5C, 0x75, 0x30, 0x30, hexDigit (b / 16), hexDigit (b % 16)]

/-- The loop of `appendString` between the quotes; `fuel` bounds the number of
iterations. An invalid byte is written as the escape of U+FFFD, the runes
U+2028 and U+2029 are escaped, every other rune is copied. -/
def appendStringBody : Nat → List Nat → List Nat
  | _, [] => []
  | 0, _ :: _ => []
  | fuel + 1, b :: rest =>
    if b < 0x80 then
      (if htmlSafe b then [b] else escapeByte b) ++ appendStringBody fuel rest
    else if (DecodeRune (b :: rest)).1 = RuneError ∧ (DecodeRune (b :: rest)).2 = 1 then
      [0x5C, 0x75, 0x66, 0x66, 0x66, 0x64] ++ appendStringBody fuel rest
    else if (DecodeRune (b :: rest)).1 = 0x2028 ∨ (DecodeRune (b :: rest)).1 = 0x2029 then
      [0x5C, 0x75, 0x32, 0x30, 0x32, hexDigit ((DecodeRune (b :: rest)).1 % 16)]
        ++ appendStringBody fuel (rest.drop ((DecodeRune (b :: rest)).2 - 1))
    else
      (b :: rest).take (DecodeRune (b :: rest)).2
        ++ appendStringBody fuel (rest.drop ((DecodeRune (b :: rest)).2 - 1))

/-- The function `appendString` of `encoding/json`: a Go string as a JSON string
literal. -/
def appendString (src : GoString) : List Nat :=
  [0x22] ++ appendStringBody src.length src ++ [0x22]

/-- Decimal digits of a natural number, most significant first; `fuel` bounds the
number of digits. -/
def formatNatAux : Nat → Nat → List Nat
  | 0, _ => []
  | fuel + 1, n =>
    if n < 10 then [0x30 + n] else formatNatAux fuel (n / 10) ++ [0x30 + n % 10]

/-- The library function `strconv.AppendInt(dst, v, 10)`. -/
def formatInt (v : Int) : List Nat :=
  if v < 0 then 0x2D :: formatNatAux (v.natAbs + 1) v.natAbs
  else formatNatAux (v.natAbs + 1) v.natAbs

/-- The JSON object written for one `Task`: the fields in declaration order under
their tags `id` and `text`. -/
def encodeTask (t : Task) : List Nat :=
  ascii "\x7b\"id\":" ++ formatInt t.ID ++ ascii ",\"text\":" ++ appendString t.Text ++ ascii "\x7d"

/-- The elements of a JSON array of tasks, separated by commas. -/
def encodeElems : List Task → List Nat
  | [] => []
  | [t] => encodeTask t
  | t :: rest => encodeTask t ++ [0x2C] ++ encodeElems rest

/-- The bytes `json.NewEncoder(w).Encode(tasks)` writes. A nil slice is written as
`null`, any other slice as an array; a list does not record whether an empty
slice is nil, so that is the parameter `isNil` (it matters for the empty list
only). -/
def Encode (isNil : Bool) (tasks : List Task) : List Nat :=
  (if tasks = [] ∧ isNil = true then ascii "null"
   else [0x5B] ++ encodeElems tasks ++ [0x5D]) ++ [0x0A]

/-! ## The library `encoding/json`: decoding

`json.NewDecoder(r).Decode(&v)` reads the first JSON value of the stream (what
follows it is left unread) and stores it in `v`; any syntax error, an empty or
truncated input, and any value that does not fit the Go type give a non-nil
error, here `none`. The value is first parsed to a tree, then stored. -/

/-- A parsed JSON value; a number keeps its literal text. -/
inductive JSON where
  | null
  | bool (b : Bool)
  | number (lit : List Nat)
  | string (s : GoString)
  | array (elems : List JSON)
  | object (members : List (GoString × JSON))

/-- Skips the JSON white space: space, tab, carriage return, newline. -/
def skipSpace : List Nat → List Nat
  | [] => []
  | c :: rest =>
    if c = 0x20 ∨ c = 0x09 ∨ c = 0x0D ∨ c = 0x0A then skipSpace rest else c :: rest

/-- The value of a hexadecimal digit, either case. -/
def hexVal (c : Nat) : Option Nat :=
  if 0x30 ≤ c ∧ c ≤ 0x39 then some (c - 0x30)
  else if 0x61 ≤ c ∧ c ≤ 0x66 then some (c - 0x61 + 10)
  else if 0x41 ≤ c ∧ c ≤ 0x46 then some (c - 0x41 + 10)
  else none

/-- The function `getu4` after the two bytes `\u`: the four hexadecimal digits
as a number, and the input after them. -/
def getu4 : List Nat → Option (Nat × List Nat)
  | a :: b :: c :: d :: rest =>
    match hexVal a, hexVal b, hexVal c, hexVal d with
    | some x, some y, some z, some w => some (x * 4096 + y * 256 + z * 16 + w, rest)
    | _, _, _, _ => none
  | _ => none

/-- The library function `utf16.DecodeRune`: the rune of a surrogate pair, U+FFFD
when the two values are not a high and a low surrogate. -/
def utf16DecodeRune (r1 r2 : Nat) : Nat :=
  if 0xD800 ≤ r1 ∧ r1 < 0xDC00 ∧ 0xDC00 ≤ r2 ∧ r2 < 0xE000 then
    (r1 - 0xD800) * 1024 + (r2 - 0xDC00) + 0x10000
  else RuneError

/-- The byte a one-letter escape stands for: the letters the scanner accepts
after a backslash, `u` apart. -/
def simpleEscape (e : Nat) : Option Nat :=
  if e = 0x22 ∨ e = 0x5C ∨ e = 0x2F then some e
  else if e = 0x62 then some 0x08
  else if e = 0x66 then some 0x0C
  else if e = 0x6E then some 0x0A
  else if e = 0x72 then some 0x0D
  else if e = 0x74 then some 0x09
  else none

/-- Puts bytes in front of the string a parser returns. -/
def prepend (bytes : List Nat) : Option (GoString × List Nat) → Option (GoString × List Nat)
  | none => none
  | some (out, rest) => some (bytes ++ out, rest)

/-- A JSON string literal after its opening quote, as the scanner delimits it and
`unquoteBytes` converts it: the Go string and the input after the closing quote.
Escapes are resolved, a surrogate pair of `\u` escapes is one rune, a lone
surrogate and every invalid UTF-8 byte become U+FFFD; a control byte, an unknown
escape or a missing closing quote is an error. `fuel` bounds the iterations. -/
def unquoteBody : Nat → List Nat → Option (GoString × List Nat)
  | 0, _ => none
  | _ + 1, [] => none
  | fuel + 1, c :: rest =>
    if c = 0x22 then some ([], rest)
    else if c = 0x5C then
      match rest with
      | [] => none
      | e :: rest2 =>
        if e = 0x75 then
          match getu4 rest2 with
          | none => none
          | some (rr, rest3) =>
            if 0xD800 ≤ rr ∧ rr < 0xE000 then
              match rest3 with
              | 0x5C :: 0x75 :: rest4 =>
                match getu4 rest4 with
                | none => none
                | some (rr1, rest5) =>
                  if utf16DecodeRune rr rr1 ≠ RuneError then
                    prepend (EncodeRune (utf16DecodeRune rr rr1)) (unquoteBody fuel rest5)
                  else prepend (EncodeRune RuneError) (unquoteBody fuel rest3)
              | _ => prepend (EncodeRune RuneError) (unquoteBody fuel rest3)
            else prepend (EncodeRune rr) (unquoteBody fuel rest3)
        else
          match simpleEscape e with
          | none => none
          | some b => prepend [b] (unquoteBody fuel rest2)
    else if c < 0x20 then none
    else if c < 0x80 then prepend [c] (unquoteBody fuel rest)
    else
      prepend (EncodeRune (DecodeRune (c :: rest)).1)
        (unquoteBody fuel (rest.drop ((DecodeRune (c :: rest)).2 - 1)))

/-- Whether `c` is an ASCII decimal digit. -/
def isDigit (c : Nat) : Bool := decide (0x30 ≤ c ∧ c ≤ 0x39)

/-- The longest run of decimal digits at the head of the input, and the rest. -/
def takeDigits : List Nat → List Nat × List Nat
  | [] => ([], [])
  | c :: rest =>
    if isDigit c then ((takeDigits rest).1.cons c, (takeDigits rest).2) else ([], c :: rest)

/-- At least one decimal digit at the head of the input. -/
def digits1 (s : List Nat) : Option (List Nat × List Nat) :=
  match takeDigits s with
  | ([], _) => none
  | (ds, rest) => some (ds, rest)

/-- The optional exponent of a number literal. -/
def parseExp (s : List Nat) : Option (List Nat × List Nat) :=
  match s with
  | e :: rest =>
    if e = 0x65 ∨ e = 0x45 then
      match rest with
      | sg :: rest2 =>
        if sg = 0x2B ∨ sg = 0x2D then
          (digits1 rest2).map (fun p => (e :: sg :: p.1, p.2))
        else (digits1 rest).map (fun p => (e :: p.1, p.2))
      | [] => none
    else some ([], s)
  | [] => some ([], s)

/-- The optional fraction of a number literal, then the optional exponent. -/
def parseFracExp (s : List Nat) : Option (List Nat × List Nat) :=
  match s with
  | 0x2E :: rest =>
    match digits1 rest with
    | none => none
    | some (fs, rest2) => (parseExp rest2).map (fun p => (0x2E :: fs ++ p.1, p.2))
  | _ => parseExp s

/-- The integer part of a number literal (`0`, or a nonzero digit and digits),
then fraction and exponent. -/
def parseUnsigned (s : List Nat) : Option (List Nat × List Nat) :=
  match s with
  | [] => none
  | c :: rest =>
    if c = 0x30 then (parseFracExp rest).map (fun p => (c :: p.1, p.2))
    else if 0x31 ≤ c ∧ c ≤ 0x39 then
      (parseFracExp (takeDigits rest).2).map (fun p => (c :: (takeDigits rest).1 ++ p.1, p.2))
    else none

/-- A JSON number literal, as the scanner delimits it: the literal and the input
after it. -/
def parseNumber (s : List Nat) : Option (List Nat × List Nat) :=
  match s with
  | 0x2D :: rest => (parseUnsigned rest).map (fun p => (0x2D :: p.1, p.2))
  | _ => parseUnsigned s

/-- Drops the bytes of `lit` from the head of the input when they are there. -/
def expect (lit : List Nat) (s : List Nat) : Option (List Nat) :=
  if lit.isPrefixOf s then some (s.drop lit.length) else none

/-- The constant `maxNestingDepth` of the scanner: arrays and objects nested
deeper are an error. -/
def maxNestingDepth : Nat := 10000

mutual

/-- One JSON value, after optional white space: the tree and the input after the
value. `depth` counts the arrays and objects the value lies in; `fuel` bounds
the depth of the calls. -/
def parseValue : Nat → Nat → List Nat → Option (JSON × List Nat)
  | 0, _, _ => none
  | fuel + 1, depth, s =>
    match skipSpace s with
    | [] => none
    | c :: rest =>
      if c = 0x7B then
        if maxNestingDepth ≤ depth then none
        else
          match skipSpace rest with
          | 0x7D :: rest2 => some (JSON.object [], rest2)
          | _ => (parseMembers fuel (depth + 1) rest).map (fun p => (JSON.object p.1, p.2))
      else if c = 0x5B then
        if maxNestingDepth ≤ depth then none
        else
          match skipSpace rest with
          | 0x5D :: rest2 => some (JSON.array [], rest2)
          | _ => (parseElems fuel (depth + 1) rest).map (fun p => (JSON.array p.1, p.2))
      else if c = 0x22 then
        (unquoteBody rest.length rest).map (fun p => (JSON.string p.1, p.2))
      else if c = 0x2D ∨ isDigit c then
        (parseNumber (c :: rest)).map (fun p => (JSON.number p.1, p.2))
      else if c = 0x6E then (expect (ascii "ull") rest).map (fun r => (JSON.null, r))
      else if c = 0x74 then (expect (ascii "rue") rest).map (fun r => (JSON.bool true, r))
      else if c = 0x66 then (expect (ascii "alse") rest).map (fun r => (JSON.bool false, r))
      else none

/-- The elements of a nonempty array after `[` or `,`: a value, then `,` and
more elements, or `]`. -/
def parseElems : Nat → Nat → List Nat → Option (List JSON × List Nat)
  | 0, _, _ => none
  | fuel + 1, depth, s =>
    match parseValue fuel depth s with
    | none => none
    | some (v, r) =>
      match skipSpace r with
      | c :: r2 =>
        if c = 0x2C then (parseElems fuel depth r2).map (fun p => (v :: p.1, p.2))
        else if c = 0x5D then some ([v], r2)
        else none
      | [] => none

/-- The members of a nonempty object after `{` or `,`: a string key, `:`, a
value, then `,` and more members, or `}`. -/
def parseMembers : Nat → Nat → List Nat → Option (List (GoString × JSON) × List Nat)
  | 0, _, _ => none
  | fuel + 1, depth, s =>
    match skipSpace s with
    | 0x22 :: r0 =>
      match unquoteBody r0.length r0 with
      | none => none
      | some (key, r1) =>
        match skipSpace r1 with
        | 0x3A :: r2 =>
          match parseValue fuel depth r2 with
          | none => none
          | some (v, r3) =>
            match skipSpace r3 with
            | c :: r4 =>
              if c = 0x2C then
                (parseMembers fuel depth r4).map (fun p => ((key, v) :: p.1, p.2))
              else if c = 0x7D then some ([(key, v)], r4)
              else none
            | [] => none
        | _ => none
    | _ => none

end

/-- ASCII lower case of a byte. -/
def lowerByte (c : Nat) : Nat := if 0x41 ≤ c ∧ c ≤ 0x5A then c + 0x20 else c

/-- Whether the object key `key` selects the struct field tagged `name` (a
lower-case ASCII name): an exact match, or else a match up to the case of
letters. For the tags `id` and `text` Unicode case folding adds nothing. -/
def matchesField (name : String) (key : GoString) : Bool :=
  decide (key.map lowerByte = ascii name)

/-- Stores a JSON value in the field `ID int`: an integer literal in the 64-bit
range sets it, `null` leaves it as it is, anything else is an
`UnmarshalTypeError`. -/
def setID (t : Task) : JSON → Option Task
  | JSON.null => some t
  | JSON.number lit => (Atoi lit).map (fun n => { t with ID := n })
  | _ => none

/-- Stores a JSON value in the field `Text string`: a string sets it, `null`
leaves it as it is, anything else is an `UnmarshalTypeError`. -/
def setText (t : Task) : JSON → Option Task
  | JSON.null => some t
  | JSON.string s => some { t with Text := s }
  | _ => none

/-- Stores one object member in a `Task`: the members `id` and `text` set their
field, members under other keys are skipped. -/
def setField (t : Task) (key : GoString) (v : JSON) : Option Task :=
  if matchesField "id" key then setID t v
  else if matchesField "text" key then setText t v
  else some t

/-- Stores the members of an object in a `Task`, in their order: of two members
for one field the later one stays. -/
def setFields : Task → List (GoString × JSON) → Option Task
  | t, [] => some t
  | t, (key, v) :: rest =>
    match setField t key v with
    | none => none
    | some t2 => setFields t2 rest

/-- Stores a JSON value in a `Task` variable holding `t`: an object sets fields,
`null` changes nothing, every other value is an `UnmarshalTypeError`. -/
def unmarshalTask (t : Task) : JSON → Option Task
  | JSON.null => some t
  | JSON.object members => setFields t members
  | _ => none

/-- Stores the elements of a JSON array in fresh (zero) tasks. -/
def unmarshalElems : List JSON → Option (List Task)
  | [] => some []
  | v :: rest =>
    match unmarshalTask { ID := 0, Text := [] } v, unmarshalElems rest with
    | some t, some ts => some (t :: ts)
    | _, _ => none

/-- Stores a JSON value in a `[]Task` variable: an array resets the slice and
appends its elements, `null` sets the slice to nil, every other value is an
`UnmarshalTypeError`. -/
def unmarshalTasks : JSON → Option (List Task)
  | JSON.null => some []
  | JSON.array elems => unmarshalElems elems
  | _ => none

/-- Fuel that lets `parseValue` read any value of `input` (theorem
`parseValue_parseFuel`). -/
def parseFuel (input : List Nat) : Nat := 2 * input.length + 2

/-- The call `json.NewDecoder(r).Decode(&newTask)` with `newTask` the zero `Task`,
on a reader delivering `body`. -/
def decodeTask (body : List Nat) : Option Task :=
  match parseValue (parseFuel body) 0 body with
  | none => none
  | some (v, _) => unmarshalTask { ID := 0, Text := [] } v

/-- The call `json.NewDecoder(file).Decode(&tasks)` on a file holding `data`. -/
def decodeTasks (data : List Nat) : Option (List Task) :=
  match parseValue (parseFuel data) 0 data with
  | none => none
  | some (v, _) => unmarshalTasks v

/-! ## HTTP handlers (main.go lines 154-171) -/

/-- The handler `handleTasks`: status 200 and the store encoded as JSON. -/
def handleTasks (isNil : Bool) (tasks : List Task) : Nat × List Nat :=
  (200, Encode isNil tasks)

/-- The handler `handleAddTask`: the store afterwards and the status of the
response. A body that does not decode gives 400 (`http.Error`) and an early
return; otherwise the decoded task is appended as it is and the status is 201. -/
def handleAddTask (tasks : List Task) (body : List Nat) : List Task × Nat :=
  match decodeTask body with
  | none => (tasks, 400)
  | some newTask => (tasks ++ [newTask], 201)

/-! ## Persistence (main.go lines 178-207) -/

/-- The files the program sees: what `os.Open` and reading a file give (`none`
when the file cannot be opened, for instance because it does not exist), and
whether `os.Create` succeeds on a name. -/
structure Files where
  read : String → Option (List Nat)
  canCreate : String → Bool

/-- The function `saveTasksToFile`: the files after the call; `none` is
`log.Fatalf`, the end of the process, when the file cannot be created. -/
def saveTasksToFile (fs : Files) (filename : String) (isNil : Bool) (tasks : List Task) :
    Option Files :=
  if fs.canCreate filename then
    some { fs with read := fun f => if f = filename then some (Encode isNil tasks) else fs.read f }
  else none

/-- The function `loadTasksFromFile` on the global store `tasks`: the store after
the call; `none` is `log.Fatalf`, the end of the process, on a file that does
not decode. A file that cannot be opened leaves the store as it is. -/
def loadTasksFromFile (fs : Files) (filename : String) (tasks : List Task) :
    Option (List Task) :=
  match fs.read filename with
  | none => some tasks
  | some data => decodeTasks data

/-- The tree of the JSON object `encodeTask` writes for a task. -/
def taskJSON (t : Task) : JSON :=
  JSON.object [(ascii "id", JSON.number (formatInt t.ID)), (ascii "text", JSON.string t.Text)]

/-- A directory without files, in which every file can be created. -/
def noFiles : Files := { read := fun _ => none, canCreate := fun _ => true }

/-- A successful `parseValue` with fuel `f` reads at least one byte, and any
fuel from twice the bytes read, less one, gives the same result. -/
def ValueFuel (f : Nat) : Prop :=
  ∀ (d : Nat) (s : List Nat) (v : JSON) (r : List Nat), parseValue f d s = some (v, r) →
    r.length < s.length ∧
    ∀ g, 2 * (s.length - r.length) ≤ g + 1 → parseValue g d s = some (v, r)

/-- A successful `parseElems` with fuel `f` reads at least one byte, and any fuel
from twice the bytes read gives the same result. -/
def ElemsFuel (f : Nat) : Prop :=
  ∀ (d : Nat) (s : List Nat) (vs : List JSON) (r : List Nat),
    parseElems f d s = some (vs, r) →
    r.length < s.length ∧
    ∀ g, 2 * (s.length - r.length) ≤ g → parseElems g d s = some (vs, r)

/-- A successful `parseMembers` with fuel `f` reads at least one byte, and any
fuel from twice the bytes read gives the same result. -/
def MembersFuel (f : Nat) : Prop :=
  ∀ (d : Nat) (s : List Nat) (ms : List (GoString × JSON)) (r : List Nat),
    parseMembers f d s = some (ms, r) →
    r.length < s.length ∧
    ∀ g, 2 * (s.length - r.length) ≤ g → parseMembers g d s = some (ms, r)
/-! ## Lemmas on the menu operations -/

theorem oneTo_succ (n : Nat) : oneTo (n + 1) = oneTo n ++ [(n : Int) + 1] := by
  simp [oneTo, List.range_succ]

theorem ids_reorganizeFrom (k : Nat) (tasks : List Task) :
    ids (reorganizeFrom k tasks)
      = (List.range tasks.length).map (fun (i : Nat) => ((k + i : Nat) : Int) + 1) := by
  induction tasks generalizing k with
  | nil => simp [reorganizeFrom, ids]
  | cons t rest ih =>
    have h := ih (k + 1)
    simp only [ids] at h
    simp only [reorganizeFrom, ids, List.map_cons, List.length_cons, List.range_succ_eq_map,
      List.map_map, h]
    simp only [List.cons.injEq, List.map_inj_left, Function.comp]
    refine ⟨by simp, fun a _ => ?_⟩
    push_cast; ring

theorem texts_reorganizeFrom (k : Nat) (tasks : List Task) :
    texts (reorganizeFrom k tasks) = texts tasks := by
  induction tasks generalizing k with
  | nil => simp [reorganizeFrom, texts]
  | cons t rest ih =>
    have h := ih (k + 1)
    simp only [texts] at h
    simp [reorganizeFrom, texts, h]

theorem length_reorganizeFrom (k : Nat) (tasks : List Task) :
    (reorganizeFrom k tasks).length = tasks.length := by
  induction tasks generalizing k with
  | nil => simp [reorganizeFrom]
  | cons t rest ih => simp [reorganizeFrom, ih]

theorem dense_reorganizeTaskIDs (tasks : List Task) : Dense (reorganizeTaskIDs tasks) := by
  simp only [Dense, reorganizeTaskIDs, ids_reorganizeFrom, length_reorganizeFrom, oneTo,
    Nat.zero_add]

theorem reorganizeFrom_of_ids (k : Nat) (tasks : List Task)
    (h : ids tasks = (List.range tasks.length).map (fun (i : Nat) => ((k + i : Nat) : Int) + 1)) :
    reorganizeFrom k tasks = tasks := by
  induction tasks generalizing k with
  | nil => simp [reorganizeFrom]
  | cons t rest ih =>
    simp only [ids, List.map_cons, List.length_cons, List.range_succ_eq_map, List.map_map,
      List.cons.injEq] at h
    obtain ⟨h0, h1⟩ := h
    have h2 : reorganizeFrom (k + 1) rest = rest := by
      apply ih
      simp only [ids, h1, List.map_inj_left, Function.comp]
      intro a _
      push_cast; ring
    simp only [reorganizeFrom, h2, List.cons.injEq, and_true]
    cases t with
    | mk i x => simp at h0; simp [h0]

theorem reorganizeTaskIDs_of_dense (tasks : List Task) (h : Dense tasks) :
    reorganizeTaskIDs tasks = tasks := by
  apply reorganizeFrom_of_ids
  simp only [Dense, oneTo] at h
  simp only [h, Nat.zero_add]

theorem searchIndex_absent (id : Int) (i : Nat) (tasks : List Task)
    (h : ∀ t ∈ tasks, t.ID ≠ id) : searchIndex id i tasks = -1 := by
  induction tasks generalizing i with
  | nil => rfl
  | cons t rest ih =>
    have ht : t.ID ≠ id := h t (List.mem_cons_self _ _)
    simp only [searchIndex, ht, if_false]
    exact ih (i + 1) (fun u hu => h u (List.mem_cons_of_mem _ hu))

theorem searchIndex_first (id : Int) (i : Nat) (pre post : List Task) (t : Task)
    (hpre : ∀ u ∈ pre, u.ID ≠ id) (ht : t.ID = id) :
    searchIndex id i (pre ++ t :: post) = ((i + pre.length : Nat) : Int) := by
  induction pre generalizing i with
  | nil => simp [searchIndex, ht]
  | cons u rest ih =>
    have hu : u.ID ≠ id := hpre u (List.mem_cons_self _ _)
    have h1 := ih (i + 1) (fun v hv => hpre v (List.mem_cons_of_mem _ hv))
    rw [List.cons_append]
    simp only [searchIndex, hu, if_false, List.length_cons, h1]
    congr 1; omega

theorem split_first (id : Int) (tasks : List Task) (h : ∃ t ∈ tasks, t.ID = id) :
    ∃ pre t post, tasks = pre ++ t :: post ∧ (∀ u ∈ pre, u.ID ≠ id) ∧ t.ID = id := by
  induction tasks with
  | nil => simp at h
  | cons a rest ih =>
    by_cases ha : a.ID = id
    · exact ⟨[], a, rest, rfl, by simp, ha⟩
    · obtain ⟨t, ht, hid⟩ := h
      have hmem : t ∈ rest := by
        rcases List.mem_cons.mp ht with h1 | h1
        · exact absurd (h1 ▸ hid) ha
        · exact h1
      obtain ⟨pre, t2, post, h1, h2, h3⟩ := ih ⟨t, hmem, hid⟩
      refine ⟨a :: pre, t2, post, by simp [h1], ?_, h3⟩
      intro u hu
      rcases List.mem_cons.mp hu with h4 | h4
      · exact h4 ▸ ha
      · exact h2 u h4

theorem removeTaskByID_absent (id : Int) (tasks : List Task)
    (h : ∀ t ∈ tasks, t.ID ≠ id) : removeTaskByID tasks id = tasks := by
  simp [removeTaskByID, searchIndex_absent id 0 tasks h]

theorem removeTaskByID_first (id : Int) (pre post : List Task) (t : Task)
    (hpre : ∀ u ∈ pre, u.ID ≠ id) (ht : t.ID = id) :
    removeTaskByID (pre ++ t :: post) id = pre ++ post := by
  have h := searchIndex_first id 0 pre post t hpre ht
  simp only [Nat.zero_add] at h
  have hne : ((pre.length : Nat) : Int) ≠ -1 := by omega
  simp [removeTaskByID, h, hne]

/-- In a store with dense IDs every number the range check accepts is the ID of
a task. -/
theorem dense_has_id (tasks : List Task) (id : Int) (hd : Dense tasks)
    (hlo : 1 ≤ id) (hhi : id ≤ (tasks.length : Int)) : ∃ t ∈ tasks, t.ID = id := by
  have hmem : id ∈ ids tasks := by
    rw [hd, oneTo, List.mem_map]
    exact ⟨(id - 1).toNat, List.mem_range.mpr (by omega), by omega⟩
  obtain ⟨t, ht, hid⟩ := List.mem_map.mp hmem
  exact ⟨t, ht, hid⟩

/-! ## Lemmas on UTF-8 -/

theorem decodeRune_valid (p0 : Nat) (rest : List Nat) (h80 : 0x80 ≤ p0)
    (hv : ¬ ((DecodeRune (p0 :: rest)).1 = RuneError ∧ (DecodeRune (p0 :: rest)).2 = 1)) :
    ∃ bs tail, p0 :: rest = bs ++ tail ∧ bs.length = (DecodeRune (p0 :: rest)).2 ∧
      EncodeRune (DecodeRune (p0 :: rest)).1 = bs ∧
      (∀ Y, DecodeRune (bs ++ Y) = DecodeRune (p0 :: rest)) ∧
      2 ≤ bs.length ∧ (∃ q bs2, bs = q :: bs2 ∧ 0x80 ≤ q) := by
  have h1 : ¬ p0 < 0x80 := by omega
  by_cases c2 : 0xC2 ≤ p0 ∧ p0 ≤ 0xDF
  · match rest, hv with
    | [], hv => simp [DecodeRune, h1, c2] at hv
    | b1 :: tail, hv =>
      by_cases hc : isCont b1 = true
      · refine ⟨[p0, b1], tail, rfl, ?_, ?_, ?_, by simp, p0, [b1], rfl, h80⟩
        · simp [DecodeRune, h1, c2, hc]
        · simp only [isCont, decide_eq_true_eq] at hc
          simp only [DecodeRune, h1, c2, hc, isCont, and_self, decide_True, if_true, if_false,
            EncodeRune]
          rw [if_neg (by omega), if_pos (by omega)]
          simp only [List.cons.injEq, and_true]
          omega
        · intro Y
          simp [DecodeRune, h1, c2, hc]
      · simp [DecodeRune, h1, c2, hc] at hv
  · by_cases c3 : 0xE0 ≤ p0 ∧ p0 ≤ 0xEF
    · match rest, hv with
      | [], hv => simp [DecodeRune, h1, c2, c3] at hv
      | [_], hv => simp [DecodeRune, h1, c2, c3] at hv
      | b1 :: b2 :: tail, hv =>
        by_cases hc : (if p0 = 0xE0 then 0xA0 else 0x80) ≤ b1
            ∧ b1 ≤ (if p0 = 0xED then 0x9F else 0xBF) ∧ isCont b2 = true
        · refine ⟨[p0, b1, b2], tail, rfl, ?_, ?_, ?_, by simp, p0, [b1, b2], rfl, h80⟩
          · simp [DecodeRune, h1, c2, c3, hc]
          · simp only [DecodeRune, h1, c2, c3, hc, and_self, if_true, if_false, EncodeRune]
            simp only [isCont, decide_eq_true_eq] at hc
            obtain ⟨hlo, hhi, hb2⟩ := hc
            have hb1 : 0x80 ≤ b1 ∧ b1 ≤ 0xBF := by
              split_ifs at hlo hhi <;> omega
            have hr : 0x800 ≤ (p0 % 16) * 4096 + (b1 % 64) * 64 + b2 % 64 := by
              split_ifs at hlo hhi <;> omega
            have hs : ¬ (0xD800 ≤ (p0 % 16) * 4096 + (b1 % 64) * 64 + b2 % 64
                ∧ (p0 % 16) * 4096 + (b1 % 64) * 64 + b2 % 64 ≤ 0xDFFF) := by
              split_ifs at hlo hhi <;> omega
            rw [if_neg (by omega), if_neg (by omega), if_neg (by omega), if_pos (by omega)]
            simp only [List.cons.injEq, and_true]
            omega
          · intro Y
            simp [DecodeRune, h1, c2, c3, hc]
        · simp [DecodeRune, h1, c2, c3, hc] at hv
    · by_cases c4 : 0xF0 ≤ p0 ∧ p0 ≤ 0xF4
      · match rest, hv with
        | [], hv => simp [DecodeRune, h1, c2, c3, c4] at hv
        | [_], hv => simp [DecodeRune, h1, c2, c3, c4] at hv
        | [_, _], hv => simp [DecodeRune, h1, c2, c3, c4] at hv
        | b1 :: b2 :: b3 :: tail, hv =>
          by_cases hc : (if p0 = 0xF0 then 0x90 else 0x80) ≤ b1
              ∧ b1 ≤ (if p0 = 0xF4 then 0x8F else 0xBF) ∧ isCont b2 = true ∧ isCont b3 = true
          · refine ⟨[p0, b1, b2, b3], tail, rfl, ?_, ?_, ?_, by simp, p0, [b1, b2, b3], rfl, h80⟩
            · simp [DecodeRune, h1, c2, c3, c4, hc]
            · simp only [DecodeRune, h1, c2, c3, c4, hc, and_self, if_true, if_false, EncodeRune]
              simp only [isCont, decide_eq_true_eq] at hc
              obtain ⟨hlo, hhi, hb2, hb3⟩ := hc
              have hb1 : 0x80 ≤ b1 ∧ b1 ≤ 0xBF := by
                split_ifs at hlo hhi <;> omega
              have hr : 0x10000 ≤ (p0 % 8) * 262144 + (b1 % 64) * 4096 + (b2 % 64) * 64 + b3 % 64
                  ∧ (p0 % 8) * 262144 + (b1 % 64) * 4096 + (b2 % 64) * 64 + b3 % 64 ≤ 0x10FFFF := by
                split_ifs at hlo hhi <;> omega
              rw [if_neg (by omega), if_neg (by omega), if_neg (by omega), if_neg (by omega)]
              simp only [List.cons.injEq, and_true]
              omega
            · intro Y
              simp [DecodeRune, h1, c2, c3, c4, hc]
          · simp [DecodeRune, h1, c2, c3, c4, hc] at hv
      · simp [DecodeRune, h1, c2, c3, c4] at hv

/-! ## Lemmas on JSON strings -/

theorem unquoteBody_quote (F : Nat) (hF : 0 < F) (rest : List Nat) :
    unquoteBody F (0x22 :: rest) = some ([], rest) := by
  obtain ⟨F2, rfl⟩ : ∃ F2, F = F2 + 1 := ⟨F - 1, by omega⟩
  simp [unquoteBody]

theorem unquoteBody_ascii (b : Nat) (hb : b < 0x80) (fuel : Nat) (X : List Nat) :
    unquoteBody (fuel + 1) ((if htmlSafe b then [b] else escapeByte b) ++ X)
      = prepend [b] (unquoteBody fuel X) := by
  by_cases hs : htmlSafe b = true
  · simp only [hs, if_true, List.singleton_append]
    simp only [htmlSafe, decide_eq_true_eq] at hs
    have h1 : ¬ b = 0x22 := hs.2.1
    have h2 : ¬ b = 0x5C := hs.2.2.2.2.2
    have h3 : ¬ b < 0x20 := by omega
    simp only [unquoteBody, h1, h2, h3, hb, if_true, if_false]
  · simp only [hs, if_false]
    interval_cases b <;> first | (exfalso; exact hs (by decide)) | rfl

theorem unquoteBody_lineSep (r : Nat) (hr : r = 0x2028 ∨ r = 0x2029) (fuel : Nat)
    (X : List Nat) :
    unquoteBody (fuel + 1) ([0x5C, 0x75, 0x32, 0x30, 0x32, hexDigit (r % 16)] ++ X)
      = prepend (EncodeRune r) (unquoteBody fuel X) := by
  rcases hr with rfl | rfl <;> rfl

theorem unquoteBody_rune (q : Nat) (bs2 : List Nat) (hq : 0x80 ≤ q) (fuel : Nat)
    (X : List Nat) :
    unquoteBody (fuel + 1) ((q :: bs2) ++ X)
      = prepend (EncodeRune (DecodeRune ((q :: bs2) ++ X)).1)
          (unquoteBody fuel ((bs2 ++ X).drop ((DecodeRune ((q :: bs2) ++ X)).2 - 1))) := by
  have h1 : ¬ q = 0x22 := by omega
  have h2 : ¬ q = 0x5C := by omega
  have h3 : ¬ q < 0x20 := by omega
  have h4 : ¬ q < 0x80 := by omega
  simp only [List.cons_append, unquoteBody, h1, h2, h3, h4, if_false]
  rfl

theorem unquoteBody_appendStringBody (n : Nat) :
    ∀ s : List Nat, s.length ≤ n → validAux n s = true →
    ∀ (F : Nat) (rest : List Nat), (appendStringBody n s).length < F →
      unquoteBody F (appendStringBody n s ++ 0x22 :: rest) = some (s, rest) := by
  induction n with
  | zero =>
    intro s hl _ F rest hF
    have hs : s = [] := List.eq_nil_of_length_eq_zero (by omega)
    subst hs
    simp only [appendStringBody, List.nil_append]
    exact unquoteBody_quote F (by omega) rest
  | succ n ih =>
    intro s hl hv F rest hF
    match s, hl, hv, hF with
    | [], _, _, hF =>
      simp only [appendStringBody, List.nil_append]
      exact unquoteBody_quote F (by omega) rest
    | b :: s2, hl, hv, hF =>
      obtain ⟨F2, rfl⟩ : ∃ F2, F = F2 + 1 := ⟨F - 1, by omega⟩
      by_cases hb : b < 0x80
      · have hd : DecodeRune (b :: s2) = (b, 1) := by simp [DecodeRune, hb]
        have hne : ¬ b = RuneError := by
          simp only [RuneError]; omega
        simp only [validAux, hd, hne, false_and, if_false, Nat.sub_self, List.drop_zero] at hv
        simp only [appendStringBody, hb, if_true, List.length_append] at hF ⊢
        have hlen : 1 ≤ (if htmlSafe b then [b] else escapeByte b).length := by
          by_cases hs : htmlSafe b = true
          · simp [hs]
          · simp only [hs, if_false, escapeByte]
            split_ifs <;> simp
        rw [List.append_assoc, unquoteBody_ascii b hb F2,
          ih s2 (by simpa using hl) hv F2 rest (by omega)]
        rfl
      · have hv2 : ¬ ((DecodeRune (b :: s2)).1 = RuneError ∧ (DecodeRune (b :: s2)).2 = 1) := by
          intro h
          simp [validAux, h] at hv
        simp only [validAux, hv2, if_false] at hv
        obtain ⟨bs, tail, hsplit, hlen, henc, hdec, h2, q, bs2, hq, hq80⟩ :=
          decodeRune_valid b s2 (by omega) hv2
        have htail : s2.drop ((DecodeRune (b :: s2)).2 - 1) = tail := by
          have h3 : (b :: s2).drop bs.length = tail := by
            rw [hsplit]; simp
          rw [hlen] at h3
          have h4 : (DecodeRune (b :: s2)).2 = ((DecodeRune (b :: s2)).2 - 1) + 1 := by omega
          rw [h4, List.drop_succ_cons] at h3
          exact h3
        have htake : (b :: s2).take (DecodeRune (b :: s2)).2 = bs := by
          have h3 : (b :: s2).take bs.length = bs := by
            rw [hsplit]; simp
          rw [hlen] at h3
          exact h3
        have hltail : tail.length ≤ n := by
          have h5 : (b :: s2).length = bs.length + tail.length := by
            rw [hsplit, List.length_append]
          simp only [List.length_cons] at h5 hl
          omega
        rw [htail] at hv
        have hdrop : (bs2 ++ (appendStringBody n tail ++ 0x22 :: rest)).drop
            ((DecodeRune (b :: s2)).2 - 1) = appendStringBody n tail ++ 0x22 :: rest := by
          have h6 : (DecodeRune (b :: s2)).2 - 1 = bs2.length := by
            rw [← hlen, hq]; simp
          rw [h6]; simp
        by_cases hls : (DecodeRune (b :: s2)).1 = 0x2028 ∨ (DecodeRune (b :: s2)).1 = 0x2029
        · simp only [appendStringBody, hb, hv2, hls, if_true, if_false, htail,
            List.length_append] at hF ⊢
          rw [List.append_assoc, unquoteBody_lineSep _ hls F2,
            ih tail hltail hv F2 rest (by simp at hF; omega), henc]
          simp only [prepend]
          rw [← hsplit]
        · simp only [appendStringBody, hb, hv2, hls, if_false, htail, htake,
            List.length_append] at hF ⊢
          rw [List.append_assoc]
          subst hq
          rw [unquoteBody_rune q bs2 hq80 F2, hdec, hdrop,
            ih tail hltail hv F2 rest (by simp at hF; omega), henc]
          simp only [prepend]
          rw [← hsplit]

/-- The loop of `utf8.ValidString` does not depend on its fuel once the fuel
covers the input. -/
theorem validAux_fuel (n : Nat) : ∀ (s : List Nat) (m : Nat), s.length ≤ n → s.length ≤ m →
    validAux n s = validAux m s := by
  induction n with
  | zero =>
    intro s m hl _
    have hs : s = [] := List.eq_nil_of_length_eq_zero (by omega)
    subst hs
    cases m <;> rfl
  | succ n ih =>
    intro s m hl hm
    match s, m, hl, hm with
    | [], m, _, _ => cases m <;> rfl
    | b :: s2, 0, _, hm => simp at hm
    | b :: s2, m + 1, hl, hm =>
      simp only [validAux]
      split_ifs with h
      · rfl
      · apply ih
        · simp only [List.length_drop, List.length_cons] at hl ⊢; omega
        · simp only [List.length_drop, List.length_cons] at hm ⊢; omega

/-! ## Lemmas on JSON numbers -/

theorem digitsValue_snoc (ds : List Nat) (d k : Nat) (hd : 0x30 ≤ d ∧ d ≤ 0x39) :
    digitsValue (ds ++ [d]) k = (digitsValue ds k).map (fun v => v * 10 + (d - 0x30)) := by
  induction ds generalizing k with
  | nil => simp [digitsValue, hd]
  | cons c ds ih =>
    by_cases hc : 0x30 ≤ c ∧ c ≤ 0x39
    · rw [List.cons_append]
      simp only [digitsValue, hc, and_self, if_true]
      exact ih _
    · rw [List.cons_append]
      simp only [digitsValue, hc, if_false, Option.map_none']

theorem formatNatAux_spec (fuel : Nat) : ∀ n : Nat, n < fuel →
    (∀ c ∈ formatNatAux fuel n, 0x30 ≤ c ∧ c ≤ 0x39) ∧
    digitsValue (formatNatAux fuel n) 0 = some n ∧
    (n = 0 → formatNatAux fuel n = [0x30]) ∧
    (0 < n → ∃ c ds, formatNatAux fuel n = c :: ds ∧ 0x31 ≤ c ∧ c ≤ 0x39) := by
  induction fuel with
  | zero => intro n h; omega
  | succ fuel ih =>
    intro n hn
    by_cases h10 : n < 10
    · simp only [formatNatAux, h10, if_true, List.mem_singleton, forall_eq]
      refine ⟨by omega, ?_, ?_, ?_⟩
      · have h1 : 0x30 ≤ 0x30 + n ∧ 0x30 + n ≤ 0x39 := by omega
        simp [digitsValue, h1]
      · intro h; subst h; rfl
      · intro h; exact ⟨0x30 + n, [], rfl, by omega, by omega⟩
    · obtain ⟨h1, h2, _, h4⟩ := ih (n / 10) (by omega)
      obtain ⟨c, ds, h5, h6, h7⟩ := h4 (by omega)
      have hd : 0x30 ≤ 0x30 + n % 10 ∧ 0x30 + n % 10 ≤ 0x39 := by omega
      simp only [formatNatAux, h10, if_false]
      refine ⟨?_, ?_, by omega, ?_⟩
      · intro x hx
        rcases List.mem_append.mp hx with hx | hx
        · exact h1 x hx
        · rw [List.mem_singleton] at hx; subst hx; exact hd
      · rw [digitsValue_snoc _ _ _ hd, h2]
        simp only [Option.map_some', Option.some.injEq]
        omega
      · intro _
        exact ⟨c, ds ++ [0x30 + n % 10], by rw [h5]; rfl, h6, h7⟩

theorem takeDigits_stop (ds : List Nat) (c : Nat) (rest : List Nat)
    (hds : ∀ x ∈ ds, 0x30 ≤ x ∧ x ≤ 0x39) (hc : isDigit c = false) :
    takeDigits (ds ++ c :: rest) = (ds, c :: rest) := by
  induction ds with
  | nil => simp [takeDigits, hc]
  | cons d ds ih =>
    have hd : isDigit d = true := by
      simpa [isDigit] using hds d (List.mem_cons_self _ _)
    have h := ih (fun x hx => hds x (List.mem_cons_of_mem _ hx))
    simp [takeDigits, hd, h]

theorem parseUnsigned_formatNat (n : Nat) (rest : List Nat) :
    parseUnsigned (formatNatAux (n + 1) n ++ 0x2C :: rest)
      = some (formatNatAux (n + 1) n, 0x2C :: rest) := by
  obtain ⟨h1, _, h3, h4⟩ := formatNatAux_spec (n + 1) n (by omega)
  by_cases h0 : n = 0
  · rw [h3 h0]; rfl
  · obtain ⟨c, ds, h5, h6, h7⟩ := h4 (by omega)
    have hds : ∀ x ∈ ds, 0x30 ≤ x ∧ x ≤ 0x39 := by
      intro x hx
      exact h1 x (by rw [h5]; exact List.mem_cons_of_mem _ hx)
    have ht := takeDigits_stop ds 0x2C rest hds (by decide)
    have hc0 : ¬ c = 0x30 := by omega
    rw [h5]
    simp only [List.cons_append, parseUnsigned, hc0, if_false, h6, h7, and_self, if_true, ht]
    simp [parseFracExp, parseExp]

theorem formatInt_head (v : Int) :
    ∃ c tl, formatInt v = c :: tl ∧ (c = 0x2D ∨ (0x30 ≤ c ∧ c ≤ 0x39)) := by
  obtain ⟨h1, _, h3, h4⟩ := formatNatAux_spec (v.natAbs + 1) v.natAbs (by omega)
  by_cases hneg : v < 0
  · exact ⟨0x2D, formatNatAux (v.natAbs + 1) v.natAbs, by simp [formatInt, hneg], Or.inl rfl⟩
  · by_cases h0 : v.natAbs = 0
    · exact ⟨0x30, [], by simp [formatInt, hneg, h3 h0], Or.inr (by omega)⟩
    · obtain ⟨c, ds, h5, h6, h7⟩ := h4 (by omega)
      exact ⟨c, ds, by simp [formatInt, hneg, h5], Or.inr (by omega)⟩

theorem parseNumber_formatInt (v : Int) (rest : List Nat) :
    parseNumber (formatInt v ++ 0x2C :: rest) = some (formatInt v, 0x2C :: rest) := by
  have hu := parseUnsigned_formatNat v.natAbs rest
  by_cases hneg : v < 0
  · simp [formatInt, hneg, parseNumber, hu]
  · obtain ⟨h1, _, h3, h4⟩ := formatNatAux_spec (v.natAbs + 1) v.natAbs (by omega)
    simp only [formatInt, hneg, if_false]
    by_cases h0 : v.natAbs = 0
    · rw [h3 h0]; rfl
    · obtain ⟨c, ds, h5, h6, h7⟩ := h4 (by omega)
      rw [h5] at hu ⊢
      have hc : ¬ c = 0x2D := by omega
      unfold parseNumber
      split
      · rename_i heq
        simp only [List.cons_append, List.cons.injEq] at heq
        exact absurd heq.1 hc
      · exact hu

theorem Atoi_formatInt (v : Int) (hlo : -(2 : Int) ^ 63 ≤ v) (hhi : v < (2 : Int) ^ 63) :
    Atoi (formatInt v) = some v := by
  obtain ⟨h1, h2, h3, h4⟩ := formatNatAux_spec (v.natAbs + 1) v.natAbs (by omega)
  by_cases hneg : v < 0
  · have hne : formatNatAux (v.natAbs + 1) v.natAbs ≠ [] := by
      obtain ⟨c, ds, h5, _, _⟩ := h4 (by omega)
      rw [h5]; simp
    obtain ⟨c, ds, h5⟩ := List.exists_cons_of_ne_nil hne
    have hr : v.natAbs ≤ 2 ^ 63 := by omega
    simp only [formatInt, hneg, if_true, Atoi, true_or, decide_True]
    rw [h5] at h2 ⊢
    simp only [h2, hr, if_true, Option.some.injEq]
    omega
  · simp only [formatInt, hneg, if_false]
    have hne : formatNatAux (v.natAbs + 1) v.natAbs ≠ [] := by
      by_cases h0 : v.natAbs = 0
      · rw [h3 h0]; simp
      · obtain ⟨c, ds, h5, _, _⟩ := h4 (by omega)
        rw [h5]; simp
    obtain ⟨c, ds, h5⟩ := List.exists_cons_of_ne_nil hne
    have hc : 0x30 ≤ c ∧ c ≤ 0x39 := h1 c (by rw [h5]; exact List.mem_cons_self _ _)
    have hc1 : ¬ c = 0x2D := by omega
    have hc2 : ¬ (c = 0x2D ∨ c = 0x2B) := by omega
    have hr : v.natAbs < 2 ^ 63 := by omega
    rw [h5] at h2 ⊢
    have hc3 : ¬ c = 0x2B := by omega
    simp only [Atoi, hc1, hc3, or_self, decide_False, if_false, h2, hr, if_true,
      Option.some.injEq, Bool.false_eq_true]
    omega

/-! ## Lemmas on parsing what the encoder writes -/

theorem parseValue_formatInt (f d : Nat) (v : Int) (rest : List Nat) :
    parseValue (f + 1) d (formatInt v ++ 0x2C :: rest)
      = some (JSON.number (formatInt v), 0x2C :: rest) := by
  have hp := parseNumber_formatInt v rest
  obtain ⟨c, tl, h, hc⟩ := formatInt_head v
  rw [h] at hp ⊢
  have h1 : ¬ (c = 0x20 ∨ c = 0x09 ∨ c = 0x0D ∨ c = 0x0A) := by omega
  have h2 : ¬ c = 0x7B := by omega
  have h3 : ¬ c = 0x5B := by omega
  have h4 : ¬ c = 0x22 := by omega
  have h5 : (c = 0x2D ∨ isDigit c = true) := by
    simp only [isDigit, decide_eq_true_eq]; omega
  rw [List.cons_append] at hp ⊢
  simp only [parseValue, skipSpace, h1, h2, h3, h4, h5, if_true, if_false, hp, Option.map_some']

theorem parseValue_appendString (f d : Nat) (s : GoString) (hs : ValidString s = true)
    (rest : List Nat) :
    parseValue (f + 1) d (appendString s ++ rest) = some (JSON.string s, rest) := by
  have hu := unquoteBody_appendStringBody s.length s (le_refl _) hs
    (appendStringBody s.length s ++ 0x22 :: rest).length rest (by simp)
  have he : appendString s ++ rest = 0x22 :: (appendStringBody s.length s ++ 0x22 :: rest) := by
    simp [appendString]
  rw [he]
  simp only [parseValue, skipSpace, Nat.reduceEqDiff, or_self, if_false, if_true, hu,
    Option.map_some']

theorem parseValue_object (f d : Nat) (hd : d < maxNestingDepth) (r : List Nat) :
    parseValue (f + 1) d (0x7B :: 0x22 :: r)
      = (parseMembers f (d + 1) (0x22 :: r)).map (fun p => (JSON.object p.1, p.2)) := by
  have hd2 : ¬ maxNestingDepth ≤ d := by omega
  rw [parseValue]
  simp only [skipSpace, Nat.reduceEqDiff, or_self, if_false, if_true, hd2]

theorem parseMembers_comma (f d : Nat) (key : GoString) (v : JSON) (r0 r2 r4 : List Nat)
    (hk : unquoteBody r0.length r0 = some (key, 0x3A :: r2))
    (hv : parseValue f d r2 = some (v, 0x2C :: r4)) :
    parseMembers (f + 1) d (0x22 :: r0)
      = (parseMembers f d r4).map (fun p => ((key, v) :: p.1, p.2)) := by
  rw [parseMembers]
  simp only [skipSpace, Nat.reduceEqDiff, or_self, if_false, if_true, hk, hv]

theorem parseMembers_close (f d : Nat) (key : GoString) (v : JSON) (r0 r2 r4 : List Nat)
    (hk : unquoteBody r0.length r0 = some (key, 0x3A :: r2))
    (hv : parseValue f d r2 = some (v, 0x7D :: r4)) :
    parseMembers (f + 1) d (0x22 :: r0) = some ([(key, v)], r4) := by
  rw [parseMembers]
  simp only [skipSpace, Nat.reduceEqDiff, or_self, if_false, if_true, hk, hv]

theorem parseValue_array (f d : Nat) (hd : d < maxNestingDepth) (r : List Nat) :
    parseValue (f + 1) d (0x5B :: 0x7B :: r)
      = (parseElems f (d + 1) (0x7B :: r)).map (fun p => (JSON.array p.1, p.2)) := by
  have hd2 : ¬ maxNestingDepth ≤ d := by omega
  rw [parseValue]
  simp only [skipSpace, Nat.reduceEqDiff, or_self, if_false, if_true, hd2]

theorem parseElems_comma (f d : Nat) (v : JSON) (s r2 : List Nat)
    (hv : parseValue f d s = some (v, 0x2C :: r2)) :
    parseElems (f + 1) d s = (parseElems f d r2).map (fun p => (v :: p.1, p.2)) := by
  rw [parseElems]
  simp only [hv, skipSpace, Nat.reduceEqDiff, or_self, if_false, if_true]

theorem parseElems_close (f d : Nat) (v : JSON) (s r2 : List Nat)
    (hv : parseValue f d s = some (v, 0x5D :: r2)) :
    parseElems (f + 1) d s = some ([v], r2) := by
  rw [parseElems]
  simp only [hv, skipSpace, Nat.reduceEqDiff, or_self, if_false, if_true]

theorem unquoteBody_id (X : List Nat) :
    unquoteBody (0x69 :: 0x64 :: 0x22 :: X).length (0x69 :: 0x64 :: 0x22 :: X)
      = some (ascii "id", X) := rfl

theorem unquoteBody_text (X : List Nat) :
    unquoteBody (0x74 :: 0x65 :: 0x78 :: 0x74 :: 0x22 :: X).length
        (0x74 :: 0x65 :: 0x78 :: 0x74 :: 0x22 :: X)
      = some (ascii "text", X) := rfl

theorem encodeTask_append (t : Task) (rest : List Nat) :
    encodeTask t ++ rest
      = 0x7B :: 0x22 :: 0x69 :: 0x64 :: 0x22 :: 0x3A :: (formatInt t.ID ++ 0x2C ::
          0x22 :: 0x74 :: 0x65 :: 0x78 :: 0x74 :: 0x22 :: 0x3A ::
            (appendString t.Text ++ 0x7D :: rest)) := by
  have h1 : ascii "\x7b\"id\":" = [0x7B, 0x22, 0x69, 0x64, 0x22, 0x3A] := by decide
  have h2 : ascii ",\"text\":" = [0x2C, 0x22, 0x74, 0x65, 0x78, 0x74, 0x22, 0x3A] := by decide
  have h3 : ascii "\x7d" = [0x7D] := by decide
  simp [encodeTask, h1, h2, h3]

theorem parseValue_encodeTask (f d : Nat) (hd : d < maxNestingDepth) (t : Task)
    (hs : ValidString t.Text = true) (rest : List Nat) :
    parseValue (f + 4) d (encodeTask t ++ rest) = some (taskJSON t, rest) := by
  have hnum := parseValue_formatInt (f + 1) (d + 1) t.ID
    (0x22 :: 0x74 :: 0x65 :: 0x78 :: 0x74 :: 0x22 :: 0x3A :: (appendString t.Text ++ 0x7D :: rest))
  have hstr := parseValue_appendString f (d + 1) t.Text hs (0x7D :: rest)
  rw [encodeTask_append, parseValue_object _ _ hd,
    parseMembers_comma (f + 2) _ _ _ _ _ _ (unquoteBody_id _) hnum,
    parseMembers_close (f + 1) _ _ _ _ _ _ (unquoteBody_text _) hstr]
  rfl

theorem encodeElems_cons_append (t : Task) (ts : List Task) (rest : List Nat) :
    ∃ r, encodeElems (t :: ts) ++ rest = 0x7B :: r := by
  cases ts with
  | nil => exact ⟨_, by rw [encodeElems, encodeTask_append]⟩
  | cons u us =>
    have h : encodeElems (t :: u :: us) = encodeTask t ++ [0x2C] ++ encodeElems (u :: us) := rfl
    exact ⟨_, by rw [h, List.append_assoc, List.append_assoc, encodeTask_append]⟩

theorem length_le_encodeElems (tasks : List Task) :
    tasks.length ≤ (encodeElems tasks).length := by
  have h1 : ∀ t : Task, 1 ≤ (encodeTask t).length := by
    intro t
    have h := congrArg List.length (encodeTask_append t [])
    simp only [List.append_nil, List.length_cons] at h
    omega
  induction tasks with
  | nil => simp
  | cons t ts ih =>
    cases ts with
    | nil => simpa [encodeElems] using h1 t
    | cons u us =>
      have h2 := h1 t
      simp only [encodeElems, List.length_append, List.length_cons] at ih ⊢
      simp only [List.length_nil]
      omega

theorem parseElems_encodeElems (ts : List Task) :
    ∀ (t : Task) (f : Nat) (rest : List Nat),
      (∀ u ∈ t :: ts, ValidString u.Text = true) →
      parseElems (f + ts.length + 5) 1 (encodeElems (t :: ts) ++ 0x5D :: rest)
        = some ((t :: ts).map taskJSON, rest) := by
  induction ts with
  | nil =>
    intro t f rest hv
    have h := parseValue_encodeTask f 1 (by decide) t (hv t (List.mem_cons_self _ _))
      (0x5D :: rest)
    simp only [encodeElems, List.length_nil, Nat.add_zero]
    rw [parseElems_close (f + 4) _ _ _ _ h]
    rfl
  | cons u us ih =>
    intro t f rest hv
    have h := parseValue_encodeTask (f + us.length + 1) 1 (by decide) t
      (hv t (List.mem_cons_self _ _)) (0x2C :: (encodeElems (u :: us) ++ 0x5D :: rest))
    have hi := ih u f rest (fun w hw => hv w (List.mem_cons_of_mem _ hw))
    have he : encodeElems (t :: u :: us) ++ 0x5D :: rest
        = encodeTask t ++ 0x2C :: (encodeElems (u :: us) ++ 0x5D :: rest) := by
      simp [encodeElems]
    have hf : f + (u :: us).length + 5 = (f + us.length + 1 + 4) + 1 := by
      simp only [List.length_cons]; omega
    have hf2 : f + us.length + 1 + 4 = f + us.length + 5 := by omega
    rw [he, hf, parseElems_comma _ _ _ _ _ h, hf2, hi]
    rfl

/-! ## Lemmas on storing a parsed value -/

theorem unmarshalTask_taskJSON (t : Task)
    (hlo : -(2 : Int) ^ 63 ≤ t.ID) (hhi : t.ID < (2 : Int) ^ 63) :
    unmarshalTask { ID := 0, Text := [] } (taskJSON t) = some t := by
  have h1 : matchesField "id" (ascii "id") = true := by decide
  have h2 : matchesField "id" (ascii "text") = false := by decide
  have h3 : matchesField "text" (ascii "text") = true := by decide
  simp [unmarshalTask, taskJSON, setFields, setField, setID, setText, h1, h2, h3,
    Atoi_formatInt t.ID hlo hhi]

theorem unmarshalElems_taskJSON (tasks : List Task)
    (h : ∀ t ∈ tasks, -(2 : Int) ^ 63 ≤ t.ID ∧ t.ID < (2 : Int) ^ 63) :
    unmarshalElems (tasks.map taskJSON) = some tasks := by
  induction tasks with
  | nil => rfl
  | cons t ts ih =>
    have h1 := h t (List.mem_cons_self _ _)
    have h2 := ih (fun u hu => h u (List.mem_cons_of_mem _ hu))
    simp only [List.map_cons, unmarshalElems, unmarshalTask_taskJSON t h1.1 h1.2, h2]

/-- Decoding what `Encode` wrote gives the tasks back, when every ID is a 64-bit
integer and every text is valid UTF-8. -/
theorem decodeTasks_Encode (isNil : Bool) (tasks : List Task)
    (hid : ∀ t ∈ tasks, -(2 : Int) ^ 63 ≤ t.ID ∧ t.ID < (2 : Int) ^ 63)
    (htx : ∀ t ∈ tasks, ValidString t.Text = true) :
    decodeTasks (Encode isNil tasks) = some tasks := by
  cases tasks with
  | nil => cases isNil <;> decide
  | cons t ts =>
    obtain ⟨r, hr⟩ := encodeElems_cons_append t ts [0x5D, 0x0A]
    have he : Encode isNil (t :: ts) = 0x5B :: (encodeElems (t :: ts) ++ [0x5D, 0x0A]) := by
      simp [Encode]
    have hlen := length_le_encodeElems (t :: ts)
    have hfuel : ∃ f, parseFuel (Encode isNil (t :: ts)) = (f + ts.length + 5) + 1 := by
      refine ⟨parseFuel (Encode isNil (t :: ts)) - (ts.length + 6), ?_⟩
      simp only [parseFuel, he, List.length_cons, List.length_append, List.length_nil] at hlen ⊢
      omega
    obtain ⟨f, hf⟩ := hfuel
    have hp := parseElems_encodeElems ts t f [0x0A] htx
    unfold decodeTasks
    rw [hf, he, hr, parseValue_array _ _ (by decide), ← hr, hp]
    simp only [Option.map_some', unmarshalTasks]
    exact unmarshalElems_taskJSON _ hid

theorem encodeElems_snoc (tasks : List Task) (t : Task) :
    encodeElems (tasks ++ [t])
      = (if tasks = [] then [] else encodeElems tasks ++ [0x2C]) ++ encodeTask t := by
  induction tasks with
  | nil => simp [encodeElems]
  | cons a rest ih =>
    cases rest with
    | nil => simp [encodeElems]
    | cons b rest2 =>
      have h1 : encodeElems (a :: b :: rest2 ++ [t])
          = encodeTask a ++ [0x2C] ++ encodeElems (b :: rest2 ++ [t]) := rfl
      have h2 : encodeElems (a :: b :: rest2)
          = encodeTask a ++ [0x2C] ++ encodeElems (b :: rest2) := rfl
      rw [h1, ih, h2]
      simp

/-- The response of `GET /tasks` on a store that ends with the task `t` contains
the JSON object of `t`. -/
theorem handleTasks_contains_last (isNil : Bool) (tasks : List Task) (t : Task) :
    List.IsInfix (encodeTask t) (handleTasks isNil (tasks ++ [t])).2 := by
  refine ⟨0x5B :: (if tasks = [] then [] else encodeElems tasks ++ [0x2C]), [0x5D, 0x0A], ?_⟩
  simp [handleTasks, Encode, encodeElems_snoc]

/-- Decoding the JSON object of a task gives the task back, when its ID is a
64-bit integer and its text is valid UTF-8. -/
theorem decodeTask_encodeTask (t : Task)
    (hlo : -(2 : Int) ^ 63 ≤ t.ID) (hhi : t.ID < (2 : Int) ^ 63)
    (htx : ValidString t.Text = true) :
    decodeTask (encodeTask t) = some t := by
  have h1 : 1 ≤ (encodeTask t).length := by
    have h2 := congrArg List.length (encodeTask_append t [])
    simp only [List.append_nil, List.length_cons] at h2
    omega
  have hf : parseFuel (encodeTask t) = 2 * (encodeTask t).length - 2 + 4 := by
    simp only [parseFuel]; omega
  have h := parseValue_encodeTask (2 * (encodeTask t).length - 2) 0 (by decide) t htx []
  rw [List.append_nil] at h
  unfold decodeTask
  rw [hf, h]
  exact unmarshalTask_taskJSON t hlo hhi

/-! ## The fuel of the decoder is enough -/

theorem length_skipSpace (s : List Nat) : (skipSpace s).length ≤ s.length := by
  induction s with
  | nil => simp [skipSpace]
  | cons c rest ih =>
    simp only [skipSpace]
    split_ifs
    · simp only [List.length_cons]; omega
    · simp

theorem length_getu4 (s r : List Nat) (v : Nat) (h : getu4 s = some (v, r)) :
    r.length + 4 = s.length := by
  match s, h with
  | a :: b :: c :: d :: rest, h =>
    simp only [getu4] at h
    split at h
    · simp only [Option.some.injEq, Prod.mk.injEq] at h
      rw [← h.2]; simp
    · simp at h

theorem prepend_eq_some (bytes : List Nat) (x : Option (GoString × List Nat))
    (out r : List Nat) (h : prepend bytes x = some (out, r)) :
    ∃ out2, x = some (out2, r) ∧ out = bytes ++ out2 := by
  match x, h with
  | some (o, r2), h =>
    simp only [prepend, Option.some.injEq, Prod.mk.injEq] at h
    exact ⟨o, by rw [h.2], h.1.symm⟩

theorem unquoteBody_fuel (f : Nat) : ∀ (s out r : List Nat),
    unquoteBody f s = some (out, r) →
    r.length < s.length ∧ ∀ g, s.length - r.length ≤ g → unquoteBody g s = some (out, r) := by
  induction f with
  | zero => intro s out r h; simp [unquoteBody] at h
  | succ f ih =>
    intro s out r h
    have key : ∀ (bytes x : List Nat), x.length < s.length →
        prepend bytes (unquoteBody f x) = some (out, r) →
        r.length < s.length ∧ ∀ g, s.length - r.length ≤ g + 1 →
          prepend bytes (unquoteBody g x) = some (out, r) := by
      intro bytes x hx hp
      obtain ⟨o2, h1, h2⟩ := prepend_eq_some _ _ _ _ hp
      obtain ⟨h3, h4⟩ := ih x o2 r h1
      refine ⟨by omega, fun g hg => ?_⟩
      rw [h4 g (by omega), h2]; rfl
    match s, h, key with
    | [], h, _ => simp [unquoteBody] at h
    | c :: rest, h, key =>
      suffices hh : r.length < (c :: rest).length ∧ ∀ g, (c :: rest).length - r.length ≤ g + 1 →
          unquoteBody (g + 1) (c :: rest) = some (out, r) by
        refine ⟨hh.1, fun g hg => ?_⟩
        obtain ⟨g2, rfl⟩ : ∃ g2, g = g2 + 1 := ⟨g - 1, by have := hh.1; omega⟩
        exact hh.2 g2 hg
      simp only [unquoteBody] at h
      by_cases hq : c = 0x22
      · subst hq
        simp only [if_true, Option.some.injEq, Prod.mk.injEq] at h
        obtain ⟨h1, h2⟩ := h
        subst h1 h2
        exact ⟨by simp, fun g _ => by simp [unquoteBody]⟩
      · simp only [hq, if_false] at h
        by_cases hb : c = 0x5C
        · subst hb
          match rest, h, key with
          | [], h, _ => simp at h
          | e :: rest2, h, key =>
            by_cases he : e = 0x75
            · subst he
              simp only [if_true] at h
              cases hg4 : getu4 rest2 with
              | none => simp [hg4] at h
              | some p =>
                obtain ⟨rr, rest3⟩ := p
                have hl3 := length_getu4 _ _ _ hg4
                simp only [hg4] at h
                by_cases hsur : 0xD800 ≤ rr ∧ rr < 0xE000
                · simp only [hsur, and_self, if_true] at h
                  split at h
                  · rename_i rest4
                    cases hg5 : getu4 rest4 with
                    | none => simp [hg5] at h
                    | some p2 =>
                      obtain ⟨rr1, rest5⟩ := p2
                      have hl5 := length_getu4 _ _ _ hg5
                      simp only [hg5] at h
                      by_cases hdec : utf16DecodeRune rr rr1 ≠ RuneError
                      · rw [if_pos hdec] at h
                        obtain ⟨h1, h2⟩ := key _ rest5
                          (by simp only [List.length_cons] at hl3 ⊢; omega) h
                        refine ⟨h1, fun g hg => ?_⟩
                        simp only [unquoteBody, hq, hg4, hsur, hg5, and_self, if_true, if_false]
                        rw [if_pos hdec]
                        exact h2 g hg
                      · rw [if_neg hdec] at h
                        obtain ⟨h1, h2⟩ := key _ (0x5C :: 0x75 :: rest4)
                          (by simp only [List.length_cons] at hl3 ⊢; omega) h
                        refine ⟨h1, fun g hg => ?_⟩
                        simp only [unquoteBody, hq, hg4, hsur, hg5, and_self, if_true, if_false]
                        rw [if_neg hdec]
                        exact h2 g hg
                  · rename_i hno
                    obtain ⟨h1, h2⟩ := key _ rest3
                      (by simp only [List.length_cons] at hl3 ⊢; omega) h
                    refine ⟨h1, fun g hg => ?_⟩
                    simp only [unquoteBody, hq, hg4, hsur, and_self, if_true, if_false]
                    exact h2 g hg
                · simp only [hsur, if_false] at h
                  obtain ⟨h1, h2⟩ := key _ rest3
                    (by simp only [List.length_cons] at hl3 ⊢; omega) h
                  refine ⟨h1, fun g hg => ?_⟩
                  simp only [unquoteBody, hq, hg4, hsur, if_true, if_false]
                  exact h2 g hg
            · simp only [he, if_false] at h
              cases hse : simpleEscape e with
              | none => simp [hse] at h
              | some b =>
                simp only [hse] at h
                obtain ⟨h1, h2⟩ := key _ rest2 (by simp only [List.length_cons]; omega) h
                refine ⟨h1, fun g hg => ?_⟩
                simp only [unquoteBody, hq, he, hse, if_true, if_false]
                exact h2 g hg
        · simp only [hb, if_false] at h
          by_cases hctl : c < 0x20
          · simp [hctl] at h
          · simp only [hctl, if_false] at h
            by_cases hasc : c < 0x80
            · simp only [hasc, if_true] at h
              obtain ⟨h1, h2⟩ := key _ rest (by simp only [List.length_cons]; omega) h
              refine ⟨h1, fun g hg => ?_⟩
              simp only [unquoteBody, hq, hb, hctl, hasc, if_true, if_false]
              exact h2 g hg
            · simp only [hasc, if_false] at h
              obtain ⟨h1, h2⟩ := key _ (rest.drop ((DecodeRune (c :: rest)).2 - 1))
                (by simp only [List.length_drop, List.length_cons]; omega) h
              refine ⟨h1, fun g hg => ?_⟩
              simp only [unquoteBody, hq, hb, hctl, hasc, if_true, if_false]
              exact h2 g hg

theorem unquoteBody_length_fuel (f : Nat) (s out r : List Nat)
    (h : unquoteBody f s = some (out, r)) :
    r.length < s.length ∧ unquoteBody s.length s = some (out, r) := by
  obtain ⟨h1, h2⟩ := unquoteBody_fuel f s out r h
  exact ⟨h1, h2 s.length (by omega)⟩

theorem length_takeDigits (s : List Nat) : (takeDigits s).2.length ≤ s.length := by
  induction s with
  | nil => simp [takeDigits]
  | cons c rest ih =>
    simp only [takeDigits]
    split_ifs
    · simp only [List.length_cons]; omega
    · simp

theorem length_digits1 (s ds r : List Nat) (h : digits1 s = some (ds, r)) :
    r.length ≤ s.length := by
  have h1 := length_takeDigits s
  unfold digits1 at h
  split at h
  · simp at h
  · rename_i ds2 r2 _ heq
    simp only [Option.some.injEq, Prod.mk.injEq] at h
    rw [heq] at h1
    rw [← h.2]
    exact h1

theorem length_parseExp (s l r : List Nat) (h : parseExp s = some (l, r)) :
    r.length ≤ s.length := by
  match s, h with
  | [], h =>
    simp only [parseExp, Option.some.injEq, Prod.mk.injEq] at h
    rw [← h.2]
  | e :: rest, h =>
    simp only [parseExp] at h
    split_ifs at h with he
    · match rest, h with
      | [], h => simp at h
      | sg :: rest2, h =>
        simp only at h
        split_ifs at h with hs
        · obtain ⟨p, hp, hq⟩ := Option.map_eq_some'.mp h
          obtain ⟨p1, p2⟩ := p
          have h1 := length_digits1 _ _ _ hp
          simp only [Prod.mk.injEq] at hq
          rw [← hq.2]
          simp only [List.length_cons]; omega
        · obtain ⟨p, hp, hq⟩ := Option.map_eq_some'.mp h
          obtain ⟨p1, p2⟩ := p
          have h1 := length_digits1 _ _ _ hp
          simp only [Prod.mk.injEq] at hq
          rw [← hq.2]
          simp only [List.length_cons] at h1 ⊢; omega
    · simp only [Option.some.injEq, Prod.mk.injEq] at h
      rw [← h.2]

theorem length_parseFracExp (s l r : List Nat) (h : parseFracExp s = some (l, r)) :
    r.length ≤ s.length := by
  unfold parseFracExp at h
  split at h
  · rename_i rest
    cases hd : digits1 rest with
    | none => simp [hd] at h
    | some p =>
      obtain ⟨fs, rest2⟩ := p
      simp only [hd] at h
      obtain ⟨q, hq1, hq2⟩ := Option.map_eq_some'.mp h
      obtain ⟨q1, q2⟩ := q
      have h1 := length_digits1 _ _ _ hd
      have h2 := length_parseExp _ _ _ hq1
      simp only [Prod.mk.injEq] at hq2
      rw [← hq2.2]
      simp only [List.length_cons]; omega
  · exact length_parseExp _ _ _ h

theorem length_parseUnsigned (s l r : List Nat) (h : parseUnsigned s = some (l, r)) :
    r.length < s.length := by
  match s, h with
  | [], h => simp [parseUnsigned] at h
  | c :: rest, h =>
    simp only [parseUnsigned] at h
    split_ifs at h
    · obtain ⟨q, hq1, hq2⟩ := Option.map_eq_some'.mp h
      obtain ⟨q1, q2⟩ := q
      have h2 := length_parseFracExp _ _ _ hq1
      simp only [Prod.mk.injEq] at hq2
      rw [← hq2.2]
      simp only [List.length_cons]; omega
    · obtain ⟨q, hq1, hq2⟩ := Option.map_eq_some'.mp h
      obtain ⟨q1, q2⟩ := q
      have h2 := length_parseFracExp _ _ _ hq1
      have h3 := length_takeDigits rest
      simp only [Prod.mk.injEq] at hq2
      rw [← hq2.2]
      simp only [List.length_cons]; omega

theorem length_parseNumber (s l r : List Nat) (h : parseNumber s = some (l, r)) :
    r.length < s.length := by
  unfold parseNumber at h
  split at h
  · obtain ⟨q, hq1, hq2⟩ := Option.map_eq_some'.mp h
    obtain ⟨q1, q2⟩ := q
    have h2 := length_parseUnsigned _ _ _ hq1
    simp only [Prod.mk.injEq] at hq2
    rw [← hq2.2]
    simp only [List.length_cons]; omega
  · exact length_parseUnsigned _ _ _ h

theorem length_expect (lit s r : List Nat) (h : expect lit s = some r) :
    r.length ≤ s.length := by
  unfold expect at h
  split_ifs at h
  simp only [Option.some.injEq] at h
  rw [← h]
  simp

theorem parseElems_step (f : Nat) (hV : ValueFuel f) (hE : ElemsFuel f) :
    ElemsFuel (f + 1) := by
  intro d s vs r h
  rw [parseElems] at h
  cases hv : parseValue f d s with
  | none => simp [hv] at h
  | some p =>
    obtain ⟨v, r1⟩ := p
    obtain ⟨hv1, hv2⟩ := hV d s v r1 hv
    simp only [hv] at h
    have hsk := length_skipSpace r1
    cases hs : skipSpace r1 with
    | nil => simp [hs] at h
    | cons c r2 =>
      rw [hs] at hsk
      simp only [hs, List.length_cons] at h hsk
      by_cases hc : c = 0x2C
      · subst hc
        simp only [if_true] at h
        obtain ⟨q, hq1, hq2⟩ := Option.map_eq_some'.mp h
        obtain ⟨q1, q2⟩ := q
        simp only [Prod.mk.injEq] at hq2
        obtain ⟨hq3, hq4⟩ := hq2
        subst hq3 hq4
        obtain ⟨he1, he2⟩ := hE d r2 q1 q2 hq1
        refine ⟨by omega, fun g hg => ?_⟩
        obtain ⟨g2, rfl⟩ : ∃ g2, g = g2 + 1 := ⟨g - 1, by omega⟩
        rw [parseElems]
        simp only [hv2 g2 (by omega), hs, if_true, he2 g2 (by omega), Option.map_some']
      · simp only [hc, if_false] at h
        by_cases hc2 : c = 0x5D
        · subst hc2
          simp only [if_true, Option.some.injEq, Prod.mk.injEq] at h
          obtain ⟨h3, h4⟩ := h
          subst h3 h4
          refine ⟨by omega, fun g hg => ?_⟩
          obtain ⟨g2, rfl⟩ : ∃ g2, g = g2 + 1 := ⟨g - 1, by omega⟩
          rw [parseElems]
          simp only [hv2 g2 (by omega), hs, if_true, hc, if_false]
        · simp [hc2] at h

theorem parseMembers_step (f : Nat) (hV : ValueFuel f) (hM : MembersFuel f) :
    MembersFuel (f + 1) := by
  intro d s ms r h
  rw [parseMembers] at h
  have hsk0 := length_skipSpace s
  split at h
  · rename_i r0 hs0
    rw [hs0] at hsk0
    cases hk : unquoteBody r0.length r0 with
    | none => simp [hk] at h
    | some p =>
      obtain ⟨key, r1⟩ := p
      obtain ⟨hk1, _⟩ := unquoteBody_length_fuel _ _ _ _ hk
      simp only [hk] at h
      have hsk1 := length_skipSpace r1
      split at h
      · rename_i r2 hs1
        rw [hs1] at hsk1
        cases hv : parseValue f d r2 with
        | none => simp [hv] at h
        | some p2 =>
          obtain ⟨v, r3⟩ := p2
          obtain ⟨hv1, hv2⟩ := hV d r2 v r3 hv
          simp only [hv] at h
          have hsk3 := length_skipSpace r3
          cases hs3 : skipSpace r3 with
          | nil => simp [hs3] at h
          | cons c r4 =>
            rw [hs3] at hsk3
            simp only [hs3, List.length_cons] at h hsk0 hsk1 hsk3
            by_cases hc : c = 0x2C
            · subst hc
              simp only [if_true] at h
              obtain ⟨q, hq1, hq2⟩ := Option.map_eq_some'.mp h
              obtain ⟨q1, q2⟩ := q
              simp only [Prod.mk.injEq] at hq2
              obtain ⟨hq3, hq4⟩ := hq2
              subst hq3 hq4
              obtain ⟨he1, he2⟩ := hM d r4 q1 q2 hq1
              refine ⟨by omega, fun g hg => ?_⟩
              obtain ⟨g2, rfl⟩ : ∃ g2, g = g2 + 1 := ⟨g - 1, by omega⟩
              rw [parseMembers]
              simp only [hs0, hk, hs1, hv2 g2 (by omega), hs3, if_true, he2 g2 (by omega),
                Option.map_some']
            · simp only [hc, if_false] at h
              by_cases hc2 : c = 0x7D
              · subst hc2
                simp only [if_true, Option.some.injEq, Prod.mk.injEq] at h
                obtain ⟨h3, h4⟩ := h
                subst h3 h4
                refine ⟨by omega, fun g hg => ?_⟩
                obtain ⟨g2, rfl⟩ : ∃ g2, g = g2 + 1 := ⟨g - 1, by omega⟩
                rw [parseMembers]
                simp only [hs0, hk, hs1, hv2 g2 (by omega), hs3, if_true, hc, if_false]
              · simp [hc2] at h
      · simp at h
  · simp at h

theorem parseValue_step (f : Nat) (hE : ElemsFuel f) (hM : MembersFuel f) :
    ValueFuel (f + 1) := by
  intro d s v r h
  rw [parseValue] at h
  have hsk := length_skipSpace s
  cases hs : skipSpace s with
  | nil => simp [hs] at h
  | cons c rest =>
    rw [hs] at hsk
    simp only [hs, List.length_cons] at h hsk
    suffices hh : r.length < s.length ∧ (r.length < s.length →
        ∀ g, 2 * (s.length - r.length) ≤ g + 1 + 1 → parseValue (g + 1) d s = some (v, r)) by
      refine ⟨hh.1, fun g hg => ?_⟩
      obtain ⟨g2, rfl⟩ : ∃ g2, g = g2 + 1 := ⟨g - 1, by have := hh.1; omega⟩
      exact hh.2 hh.1 g2 hg
    have hsk2 := length_skipSpace rest
    by_cases hobj : c = 0x7B
    · subst hobj
      simp only [if_true] at h
      by_cases hd : maxNestingDepth ≤ d
      · simp [hd] at h
      · simp only [hd, if_false] at h
        split at h
        · rename_i rest2 hs2
          rw [hs2] at hsk2
          simp only [Option.some.injEq, Prod.mk.injEq, List.length_cons] at h hsk2
          obtain ⟨h3, h4⟩ := h
          subst h3 h4
          refine ⟨by omega, fun _ g _ => ?_⟩
          rw [parseValue]
          simp only [hs, if_true, hd, if_false, hs2]
        · rename_i hno
          obtain ⟨q, hq1, hq2⟩ := Option.map_eq_some'.mp h
          obtain ⟨q1, q2⟩ := q
          simp only [Prod.mk.injEq] at hq2
          obtain ⟨hq3, hq4⟩ := hq2
          subst hq3 hq4
          obtain ⟨he1, he2⟩ := hM (d + 1) rest q1 q2 hq1
          refine ⟨by omega, fun _ g hg => ?_⟩
          rw [parseValue]
          simp only [hs, if_true, hd, if_false]
          rw [he2 g (by omega)]
          rfl
    · simp only [hobj, if_false] at h
      by_cases harr : c = 0x5B
      · subst harr
        simp only [if_true] at h
        by_cases hd : maxNestingDepth ≤ d
        · simp [hd] at h
        · simp only [hd, if_false] at h
          split at h
          · rename_i rest2 hs2
            rw [hs2] at hsk2
            simp only [Option.some.injEq, Prod.mk.injEq, List.length_cons] at h hsk2
            obtain ⟨h3, h4⟩ := h
            subst h3 h4
            refine ⟨by omega, fun _ g _ => ?_⟩
            rw [parseValue]
            simp only [hs, hobj, if_true, hd, if_false, hs2]
          · rename_i hno
            obtain ⟨q, hq1, hq2⟩ := Option.map_eq_some'.mp h
            obtain ⟨q1, q2⟩ := q
            simp only [Prod.mk.injEq] at hq2
            obtain ⟨hq3, hq4⟩ := hq2
            subst hq3 hq4
            obtain ⟨he1, he2⟩ := hE (d + 1) rest q1 q2 hq1
            refine ⟨by omega, fun _ g hg => ?_⟩
            rw [parseValue]
            simp only [hs, hobj, if_true, hd, if_false]
            rw [he2 g (by omega)]
            rfl
      · simp only [harr, if_false] at h
        have hrest : ∀ g, parseValue (g + 1) d s = some (v, r) := by
          intro g
          rw [parseValue]
          simp only [hs, hobj, harr, if_false]
          exact h
        refine ⟨?_, fun _ g _ => hrest g⟩
        by_cases hstr : c = 0x22
        · simp only [hstr, if_true] at h
          obtain ⟨q, hq1, hq2⟩ := Option.map_eq_some'.mp h
          obtain ⟨q1, q2⟩ := q
          simp only [Prod.mk.injEq] at hq2
          obtain ⟨h1, _⟩ := unquoteBody_length_fuel _ _ _ _ hq1
          rw [← hq2.2]
          omega
        · simp only [hstr, if_false] at h
          by_cases hnum : c = 0x2D ∨ isDigit c = true
          · simp only [hnum, if_true] at h
            obtain ⟨q, hq1, hq2⟩ := Option.map_eq_some'.mp h
            obtain ⟨q1, q2⟩ := q
            simp only [Prod.mk.injEq] at hq2
            have h1 := length_parseNumber _ _ _ hq1
            rw [← hq2.2]
            simp only [List.length_cons] at h1 ⊢
            omega
          · simp only [hnum, if_false] at h
            split_ifs at h
            all_goals
              obtain ⟨q, hq1, hq2⟩ := Option.map_eq_some'.mp h
              simp only [Prod.mk.injEq] at hq2
              have h1 := length_expect _ _ _ hq1
              rw [← hq2.2]
              omega

theorem parse_fuel (f : Nat) : ValueFuel f ∧ ElemsFuel f ∧ MembersFuel f := by
  induction f with
  | zero =>
    refine ⟨?_, ?_, ?_⟩
    · intro d s v r h; simp [parseValue] at h
    · intro d s v r h; simp [parseElems] at h
    · intro d s v r h; simp [parseMembers] at h
  | succ f ih =>
    exact ⟨parseValue_step f ih.2.1 ih.2.2, parseElems_step f ih.1 ih.2.1,
      parseMembers_step f ih.1 ih.2.2⟩

/-- The fuel `parseFuel` is enough: a value that some fuel parses is parsed, with
the same result, by `parseValue (parseFuel s)`. -/
theorem parseValue_parseFuel (f d : Nat) (s : List Nat) (v : JSON) (r : List Nat)
    (h : parseValue f d s = some (v, r)) :
    parseValue (parseFuel s) d s = some (v, r) := by
  obtain ⟨_, h2⟩ := (parse_fuel f).1 d s v r h
  exact h2 (parseFuel s) (by simp only [parseFuel]; omega)

/-- The decoder does not fail for lack of fuel: when some fuel parses a value at
the head of the body, `decodeTask` stores that value. -/
theorem decodeTask_of_parse (f : Nat) (body : List Nat) (v : JSON) (r : List Nat)
    (h : parseValue f 0 body = some (v, r)) :
    decodeTask body = unmarshalTask { ID := 0, Text := [] } v := by
  simp only [decodeTask, parseValue_parseFuel f 0 body v r h]

/-- The decoder does not fail for lack of fuel: when some fuel parses a value at
the head of the file, `decodeTasks` stores that value. -/
theorem decodeTasks_of_parse (f : Nat) (data : List Nat) (v : JSON) (r : List Nat)
    (h : parseValue f 0 data = some (v, r)) :
    decodeTasks data = unmarshalTasks v := by
  simp only [decodeTasks, parseValue_parseFuel f 0 data v r h]

/-! ## The menu operations: adding -/

/-- C1: one menu Add step on a store of length `N` appends exactly
`Task{ID: N+1, Text: text}` and keeps the `N` existing tasks unchanged and in
order; `k` Add steps from the empty store on the texts `t1..tk` yield
`[{1,t1},...,{k,tk}]`; and the function `addTask`, fed the texts separated by the
answer `"s"` and ended by another answer, performs exactly these steps. -/
theorem addTask_assigns_next_id :
    (∀ (tasks : List Task) (text : GoString),
      addTaskStep tasks text = tasks ++ [{ ID := (tasks.length : Int) + 1, Text := text }]
      ∧ (addTaskStep tasks text).length = tasks.length + 1
      ∧ (addTaskStep tasks text).take tasks.length = tasks) ∧
    (∀ ts : List GoString, ts.foldl addTaskStep initialTasks = numbered ts) ∧
    (∀ (ts : List GoString) (last choice : GoString) (rest : List GoString) (tasks : List Task),
      choice ≠ ascii "s" →
      addTask (ts.flatMap (fun t => [t, ascii "s"]) ++ last :: choice :: rest) tasks
        = ((ts ++ [last]).foldl addTaskStep tasks, rest)) := by
  refine ⟨fun tasks text => ⟨rfl, by simp [addTaskStep], by simp [addTaskStep]⟩, ?_, ?_⟩
  · intro ts
    induction ts using List.reverseRecOn with
    | nil => rfl
    | append_singleton l a ih =>
      rw [List.foldl_append, ih]
      simp [addTaskStep, numbered, List.enum_append, List.enumFrom_singleton]
  · intro ts
    induction ts with
    | nil =>
      intro last choice rest tasks h
      simp [addTask, h]
    | cons t ts ih =>
      intro last choice rest tasks h
      simp only [List.flatMap_cons, List.cons_append, List.nil_append, addTask, ne_eq,
        not_true_eq_false, if_false, List.foldl_cons]
      exact ih last choice rest _ h

/-- Witness of C1: two texts typed at the menu, the second followed by `"n"`. -/
theorem addTask_assigns_next_id_witness :
    addTask [ascii "buy milk", ascii "s", ascii "walk dog", ascii "n"] initialTasks
      = ([{ ID := 1, Text := ascii "buy milk" }, { ID := 2, Text := ascii "walk dog" }], []) := by
  have h := addTask_assigns_next_id.2.2 [ascii "buy milk"] (ascii "walk dog") (ascii "n") []
    initialTasks (by decide)
  simpa [addTaskStep, initialTasks] using h

/-! ## The menu operations: removing -/

/-- C10: `removeTaskByID` erases the first task, in list order, whose ID equals
`id` and keeps every other task (later tasks with the same ID included) unchanged
and in order; when no task has that ID the list is returned unchanged. The result
has length `N - 1` exactly when some task has the ID, and `N` otherwise. -/
theorem removeTaskByID_erases_first (tasks : List Task) (id : Int) :
    (((∀ t ∈ tasks, t.ID ≠ id) ∧ removeTaskByID tasks id = tasks) ∨
      (∃ pre t post, tasks = pre ++ t :: post ∧ (∀ u ∈ pre, u.ID ≠ id) ∧ t.ID = id ∧
        removeTaskByID tasks id = pre ++ post)) ∧
    ((removeTaskByID tasks id).length + 1 = tasks.length ↔ ∃ t ∈ tasks, t.ID = id) ∧
    ((removeTaskByID tasks id).length = tasks.length ↔ ¬ ∃ t ∈ tasks, t.ID = id) := by
  by_cases h : ∃ t ∈ tasks, t.ID = id
  · obtain ⟨pre, t, post, h1, h2, h3⟩ := split_first id tasks h
    have h4 := removeTaskByID_first id pre post t h2 h3
    subst h1
    refine ⟨Or.inr ⟨pre, t, post, rfl, h2, h3, h4⟩, ?_, ?_⟩
    · simp only [h4, h, iff_true, List.length_append, List.length_cons]; omega
    · simp only [h4, h, not_true_eq_false, iff_false, List.length_append, List.length_cons]
      omega
  · have h0 : ∀ t ∈ tasks, t.ID ≠ id := fun t ht hid => h ⟨t, ht, hid⟩
    have h4 := removeTaskByID_absent id tasks h0
    refine ⟨Or.inl ⟨h0, h4⟩, ?_, ?_⟩
    · simp only [h4, h, iff_false]; omega
    · simp only [h4, h, not_false_eq_true]

/-- What the completion step does on a number the range check accepts. -/
theorem completeTaskStep_accepted (tasks : List Task) (taskID : GoString) (id : Int)
    (hparse : Atoi taskID = some id) (hlo : 1 ≤ id) (hhi : id ≤ (tasks.length : Int)) :
    completeTaskStep tasks taskID
      = (reorganizeTaskIDs (removeTaskByID tasks id), CompleteMsg.removed) := by
  have h : ¬ (id < 1 ∨ id > (tasks.length : Int)) := by omega
  simp only [completeTaskStep, hparse, h, if_false]

/-- What the completion step does on a line the range check rejects. -/
theorem completeTaskStep_rejected (tasks : List Task) (taskID : GoString)
    (h : rejected tasks (Atoi taskID) = true) :
    completeTaskStep tasks taskID = (tasks, CompleteMsg.invalid) := by
  unfold completeTaskStep
  cases hp : Atoi taskID with
  | none => rfl
  | some id =>
    rw [hp] at h
    have h2 : id < 1 ∨ id > (tasks.length : Int) := by simpa [rejected] using h
    simp only [h2, if_true]

/-- C2, as the code has it: when the number passes the range check and some task
of the store has that ID (as in every store with dense IDs), the completion step
removes exactly one task, the first with that ID: the new store has length
`N - 1`, IDs `1..N-1` in order, and the original texts with that entry deleted. -/
theorem completeTaskStep_removes_one (tasks : List Task) (taskID : GoString) (id : Int)
    (hparse : Atoi taskID = some id) (hlo : 1 ≤ id) (hhi : id ≤ (tasks.length : Int))
    (hex : ∃ t ∈ tasks, t.ID = id) :
    (completeTaskStep tasks taskID).2 = CompleteMsg.removed ∧
    (completeTaskStep tasks taskID).1.length + 1 = tasks.length ∧
    ids (completeTaskStep tasks taskID).1 = oneTo (tasks.length - 1) ∧
    ∃ pre t post, tasks = pre ++ t :: post ∧ (∀ u ∈ pre, u.ID ≠ id) ∧ t.ID = id ∧
      texts (completeTaskStep tasks taskID).1 = texts pre ++ texts post := by
  obtain ⟨pre, t, post, h1, h2, h3⟩ := split_first id tasks hex
  have h4 := removeTaskByID_first id pre post t h2 h3
  rw [completeTaskStep_accepted tasks taskID id hparse hlo hhi]
  subst h1
  rw [h4]
  have hd := dense_reorganizeTaskIDs (pre ++ post)
  have hl : (reorganizeTaskIDs (pre ++ post)).length = (pre ++ post).length :=
    length_reorganizeFrom 0 _
  refine ⟨rfl, ?_, ?_, pre, t, post, rfl, h2, h3, ?_⟩
  · simp only [hl, List.length_append, List.length_cons]; omega
  · rw [Dense, hl] at hd
    rw [hd]
    congr 1
    simp only [List.length_append, List.length_cons]; omega
  · simp only [reorganizeTaskIDs, texts_reorganizeFrom]
    simp [texts]

/-- Witness of C2: from `[{1,"buy milk"},{2,"walk dog"}]`, completing number 1
leaves `[{1,"walk dog"}]`. -/
theorem completeTaskStep_removes_one_witness :
    (completeTaskStep [{ ID := 1, Text := ascii "buy milk" }, { ID := 2, Text := ascii "walk dog" }]
        (ascii "1")).1 = [{ ID := 1, Text := ascii "walk dog" }] ∧
    (completeTaskStep [{ ID := 1, Text := ascii "buy milk" }, { ID := 2, Text := ascii "walk dog" }]
        (ascii "1")).1.length + 1 = 2 :=
  ⟨by decide,
   (completeTaskStep_removes_one
      [{ ID := 1, Text := ascii "buy milk" }, { ID := 2, Text := ascii "walk dog" }]
      (ascii "1") 1 (by decide) (by decide) (by decide)
      ⟨{ ID := 1, Text := ascii "buy milk" }, by decide, rfl⟩).2.1⟩

/-- Counterexample to C2 as stated: on the store `[{0,"x"}]` (as left by the HTTP
add of `{"id":0,"text":"x"}`) the number 1 passes the range check `1 <= 1 <= 1`,
yet no task is removed: the store keeps its length 1. -/
theorem completeTaskStep_keeps_length_counterexample :
    Atoi (ascii "1") = some 1 ∧ (1 : Int) ≤ 1 ∧
    (1 : Int) ≤ (([{ ID := 0, Text := ascii "x" }] : List Task).length : Int) ∧
    (completeTaskStep [{ ID := 0, Text := ascii "x" }] (ascii "1")).1
      = [{ ID := 1, Text := ascii "x" }] ∧
    ¬ ((completeTaskStep [{ ID := 0, Text := ascii "x" }] (ascii "1")).1.length
        = ([{ ID := 0, Text := ascii "x" }] : List Task).length - 1) := by
  decide

/-- C3 at its failing input: on the store `[{1,"buy milk"},{7,"walk dog"}]` the
number 2 is the ID of no task, the range check accepts it, the store is changed
(the second task is renumbered from 7 to 2) and a removal is reported. -/
theorem completeTaskStep_unmatched_id_renumbers :
    Atoi (ascii "2") = some 2 ∧
    (∀ t ∈ ([{ ID := 1, Text := ascii "buy milk" }, { ID := 7, Text := ascii "walk dog" }] :
        List Task), t.ID ≠ 2) ∧
    completeTaskStep [{ ID := 1, Text := ascii "buy milk" }, { ID := 7, Text := ascii "walk dog" }]
        (ascii "2")
      = ([{ ID := 1, Text := ascii "buy milk" }, { ID := 2, Text := ascii "walk dog" }],
          CompleteMsg.removed) ∧
    (completeTaskStep [{ ID := 1, Text := ascii "buy milk" }, { ID := 7, Text := ascii "walk dog" }]
        (ascii "2")).1
      ≠ [{ ID := 1, Text := ascii "buy milk" }, { ID := 7, Text := ascii "walk dog" }] := by
  decide

/-- C9: dense ID invariant. After a completion step whose number passes the range
check the IDs are exactly `1..M` in list order, `M` the new length, whatever the
IDs were before; the menu Add step and the menu completion step both preserve
"IDs are exactly `1..N` in list order"; so it holds in every store reachable from
the empty store by menu operations alone. -/
theorem dense_ids_invariant :
    (∀ (tasks : List Task) (taskID : GoString) (id : Int),
      Atoi taskID = some id → 1 ≤ id → id ≤ (tasks.length : Int) →
      ids (completeTaskStep tasks taskID).1 = oneTo (completeTaskStep tasks taskID).1.length) ∧
    (∀ (tasks : List Task) (text : GoString), Dense tasks → Dense (addTaskStep tasks text)) ∧
    (∀ (tasks : List Task) (taskID : GoString),
      Dense tasks → Dense (completeTaskStep tasks taskID).1) ∧
    (∀ tasks : List Task, MenuReachable tasks → Dense tasks) := by
  have hadd : ∀ (tasks : List Task) (text : GoString),
      Dense tasks → Dense (addTaskStep tasks text) := by
    intro tasks text h
    simp only [Dense, ids] at h
    simp [Dense, ids, addTaskStep, oneTo_succ, h]
  have hcomp : ∀ (tasks : List Task) (taskID : GoString),
      Dense tasks → Dense (completeTaskStep tasks taskID).1 := by
    intro tasks taskID h
    by_cases hr : rejected tasks (Atoi taskID) = true
    · rw [completeTaskStep_rejected tasks taskID hr]; exact h
    · cases hp : Atoi taskID with
      | none => simp [hp, rejected] at hr
      | some id =>
        have h2 : ¬ (id < 1 ∨ id > (tasks.length : Int)) := by simpa [hp, rejected] using hr
        rw [completeTaskStep_accepted tasks taskID id hp (by omega) (by omega)]
        exact dense_reorganizeTaskIDs _
  refine ⟨?_, hadd, hcomp, ?_⟩
  · intro tasks taskID id hp hlo hhi
    rw [completeTaskStep_accepted tasks taskID id hp hlo hhi]
    exact dense_reorganizeTaskIDs _
  · intro tasks hreach
    induction hreach with
    | init => rfl
    | add tasks text _ ih => exact hadd tasks text ih
    | complete tasks taskID _ ih => exact hcomp tasks taskID ih

/-- Witness of C9: a store with the IDs 0 and 7 has the IDs `[1, 2]` after the
completion step on the number 2. -/
theorem dense_ids_invariant_witness :
    ids (completeTaskStep [{ ID := 0, Text := ascii "x" }, { ID := 7, Text := ascii "y" }]
      (ascii "2")).1
    = oneTo (completeTaskStep [{ ID := 0, Text := ascii "x" }, { ID := 7, Text := ascii "y" }]
      (ascii "2")).1.length :=
  dense_ids_invariant.1 [{ ID := 0, Text := ascii "x" }, { ID := 7, Text := ascii "y" }]
    (ascii "2") 2 (by decide) (by decide) (by decide)

/-! ## Persistence -/

/-- C4, as the code has it: for every task list whose texts are valid UTF-8 (the
IDs being 64-bit integers, as every Go `int` is), the empty list included,
whether an empty slice is nil or not and whatever the store held before:
`saveTasksToFile` on a file that can be created writes the JSON text of the list,
and `loadTasksFromFile` on that file then yields a store equal to the list,
with the same IDs, the same texts and the same order. -/
theorem save_load_roundtrip (fs : Files) (filename : String) (isNil : Bool)
    (tasks store : List Task)
    (hcreate : fs.canCreate filename = true)
    (hid : ∀ t ∈ tasks, -(2 : Int) ^ 63 ≤ t.ID ∧ t.ID < (2 : Int) ^ 63)
    (htx : ∀ t ∈ tasks, ValidString t.Text = true) :
    ∃ fs2, saveTasksToFile fs filename isNil tasks = some fs2 ∧
      fs2.read filename = some (Encode isNil tasks) ∧
      loadTasksFromFile fs2 filename store = some tasks := by
  refine ⟨Files.mk (fun f => if f = filename then some (Encode isNil tasks) else fs.read f)
    fs.canCreate, ?_, ?_, ?_⟩
  · simp only [saveTasksToFile, hcreate, if_true]
  · simp only [if_true]
  · simp only [loadTasksFromFile, if_true]
    exact decodeTasks_Encode isNil tasks hid htx

/-- Witness of C4: two tasks, one with a text outside ASCII, saved and loaded. -/
theorem save_load_roundtrip_witness :
    ∃ fs2, saveTasksToFile noFiles "tasks.json" false
        [{ ID := 1, Text := ascii "buy milk" }, { ID := 2, Text := utf8 "pão" }]
          = some fs2 ∧
      fs2.read "tasks.json" = some (Encode false
        [{ ID := 1, Text := ascii "buy milk" }, { ID := 2, Text := utf8 "pão" }]) ∧
      loadTasksFromFile fs2 "tasks.json" initialTasks
        = some [{ ID := 1, Text := ascii "buy milk" }, { ID := 2, Text := utf8 "pão" }] :=
  save_load_roundtrip noFiles "tasks.json" false
    [{ ID := 1, Text := ascii "buy milk" }, { ID := 2, Text := utf8 "pão" }]
    initialTasks rfl (by decide) (by decide)

/-- Counterexample to C4 as stated: the text `p\xE3o` ("pão" in Latin-1, three
bytes that are not valid UTF-8) is a Go string the menu can read; saved, its
byte `0xE3` is written as the escape of U+FFFD, and loaded it is the five bytes
`p\xEF\xBF\xBDo`: the loaded store differs from the saved list. -/
theorem save_load_invalid_utf8_counterexample :
    Encode false [{ ID := 1, Text := [0x70, 0xE3, 0x6F] }]
      = ascii "[\x7b\"id\":1,\"text\":\"p\\ufffdo\"\x7d]\n" ∧
    (saveTasksToFile noFiles "tasks.json" false [{ ID := 1, Text := [0x70, 0xE3, 0x6F] }]).bind
        (fun fs2 => loadTasksFromFile fs2 "tasks.json" initialTasks)
      = some [{ ID := 1, Text := [0x70, 0xEF, 0xBF, 0xBD, 0x6F] }] ∧
    (saveTasksToFile noFiles "tasks.json" false [{ ID := 1, Text := [0x70, 0xE3, 0x6F] }]).bind
        (fun fs2 => loadTasksFromFile fs2 "tasks.json" initialTasks)
      ≠ some [{ ID := 1, Text := [0x70, 0xE3, 0x6F] }] := by
  decide

/-- C7: when the file cannot be opened, `loadTasksFromFile` returns normally (no
`log.Fatalf`) and leaves the store as it is; called on the initial store, as
`main` does, the store is empty afterwards. -/
theorem loadTasksFromFile_missing_file (fs : Files) (filename : String)
    (hmissing : fs.read filename = none) :
    loadTasksFromFile fs filename initialTasks = some [] ∧
    ∀ tasks : List Task, loadTasksFromFile fs filename tasks = some tasks := by
  simp [loadTasksFromFile, hmissing, initialTasks]

/-- Witness of C7: a directory without files. -/
theorem loadTasksFromFile_missing_file_witness :
    loadTasksFromFile noFiles "tasks.json" initialTasks = some [] :=
  (loadTasksFromFile_missing_file noFiles "tasks.json" rfl).1

/-! ## HTTP -/

/-- C5: when the body decodes to a task `t`, `handleAddTask` leaves the store
with `t` appended at the end as decoded (no ID is assigned, the existing tasks
are untouched) and answers 201. The JSON object of any task `u` (64-bit ID, text
in valid UTF-8) is such a body and appends `u` itself, with the ID the client
wrote. In particular the body `{"id":0,"text":"x"}` on any store appends the
task with ID 0 and text "x", and the response of a following `GET /tasks` has
status 200 and contains that object. -/
theorem handleAddTask_appends_verbatim (tasks : List Task) (body : List Nat) (t : Task)
    (hdecode : decodeTask body = some t) :
    handleAddTask tasks body = (tasks ++ [t], 201) ∧
    (handleAddTask tasks body).1.take tasks.length = tasks ∧
    (handleAddTask tasks body).1.getLast? = some t ∧
    (∀ u : Task, -(2 : Int) ^ 63 ≤ u.ID → u.ID < (2 : Int) ^ 63 → ValidString u.Text = true →
      handleAddTask tasks (encodeTask u) = (tasks ++ [u], 201)) ∧
    (∀ isNil : Bool,
      (handleAddTask tasks (ascii "\x7b\"id\":0,\"text\":\"x\"\x7d")).1
        = tasks ++ [{ ID := 0, Text := ascii "x" }] ∧
      (handleAddTask tasks (ascii "\x7b\"id\":0,\"text\":\"x\"\x7d")).2 = 201 ∧
      (handleTasks isNil (handleAddTask tasks (ascii "\x7b\"id\":0,\"text\":\"x\"\x7d")).1).1
        = 200 ∧
      List.IsInfix (ascii "\x7b\"id\":0,\"text\":\"x\"\x7d")
        (handleTasks isNil
          (handleAddTask tasks (ascii "\x7b\"id\":0,\"text\":\"x\"\x7d")).1).2) := by
  have h0 : decodeTask (ascii "\x7b\"id\":0,\"text\":\"x\"\x7d")
      = some { ID := 0, Text := ascii "x" } := by
    decide
  have h1 : encodeTask { ID := 0, Text := ascii "x" }
      = ascii "\x7b\"id\":0,\"text\":\"x\"\x7d" := by
    decide
  refine ⟨by simp [handleAddTask, hdecode], by simp [handleAddTask, hdecode],
    by simp [handleAddTask, hdecode], ?_, ?_⟩
  · intro u hlo hhi htx
    simp only [handleAddTask, decodeTask_encodeTask u hlo hhi htx]
  · intro isNil
    have h2 := handleTasks_contains_last isNil tasks { ID := 0, Text := ascii "x" }
    rw [h1] at h2
    simp only [handleAddTask, h0] at h2 ⊢
    exact ⟨trivial, trivial, rfl, h2⟩

/-- Witness of C5: the body `{"id":7,"text":"x"}` posted to a store of one task. -/
theorem handleAddTask_appends_verbatim_witness :
    handleAddTask [{ ID := 1, Text := ascii "buy milk" }] (ascii "\x7b\"id\":7,\"text\":\"x\"\x7d")
      = ([{ ID := 1, Text := ascii "buy milk" }] ++ [{ ID := 7, Text := ascii "x" }], 201) :=
  (handleAddTask_appends_verbatim [{ ID := 1, Text := ascii "buy milk" }]
    (ascii "\x7b\"id\":7,\"text\":\"x\"\x7d") { ID := 7, Text := ascii "x" } (by decide)).1

/-- C6: `handleAddTask` answers 400 exactly when the body does not decode as a
`Task`, and then the store is left as it was; otherwise it answers 201. The
bodies `not json` and `"not json"` give 400 and an unchanged store. -/
theorem handleAddTask_bad_request (tasks : List Task) (body : List Nat) :
    ((handleAddTask tasks body).2 = 400 ↔ decodeTask body = none) ∧
    ((handleAddTask tasks body).2 = 400 ∧ (handleAddTask tasks body).1 = tasks ∨
      (handleAddTask tasks body).2 = 201) ∧
    handleAddTask tasks (ascii "not json") = (tasks, 400) ∧
    handleAddTask tasks (ascii "\"not json\"") = (tasks, 400) := by
  have h1 : decodeTask (ascii "not json") = none := by decide
  have h2 : decodeTask (ascii "\"not json\"") = none := by decide
  refine ⟨?_, ?_, by simp [handleAddTask, h1], by simp [handleAddTask, h2]⟩
  · cases h : decodeTask body <;> simp [handleAddTask, h]
  · cases h : decodeTask body <;> simp [handleAddTask, h]

end TodoList
